import Mathlib

/-! simple_print: placeholder parser, template engine and container renderers.

A shallow embedding of `src/format_placeholder.h`, `src/formatter.h` and
`src/std_format.h`.

Conventions of the embedding

* A `std::string` (and the C string it is built from) is the list of its
  characters, `List Char`, the terminating NUL of a C string left out; offsets are `Nat` (every `std::size_t` computed by
  the code stays between `0` and the length of the text, so no wrap-around
  occurs), `int` fields are `Int` (every stored value comes out of `stoi`,
  which range-checks it, or is the constant `-1`).
* A function that can raise returns `Option`: `none` stands for an exception
  (or undefined behaviour such as `front()` of an empty string) leaving the
  function.  An exception that the source catches is handled inside the model
  exactly where the `catch` is.
* Loops over an offset are given a fuel argument; the callers pass
  `spec.length + 1`, which is always enough, and exhausted fuel is `none`.
-/

namespace simple_print

/-! ## The parts of the C++ standard library the code calls -/

namespace std

/-- `std::string::npos`-free search: first offset `i` (counted from `i0`) of a
character of `cs` satisfying `p`. -/
def find_idx (p : Char → Bool) : List Char → Nat → Option Nat
  | [], _ => none
  | c :: cs, i => if p c then some i else find_idx p cs (i + 1)

/-- `s.find(c, start)`: the first offset `≥ start` holding `c`; `none` is
`std::string::npos`. -/
def find (s : List Char) (c : Char) (start : Nat) : Option Nat :=
  find_idx (fun x => x == c) (s.drop start) start

/-- `s.find_first_not_of(set, start)`: the first offset `≥ start` whose
character is not in `set`; `none` is `std::string::npos`. -/
def find_first_not_of (s : List Char) (set : List Char) (start : Nat) : Option Nat :=
  find_idx (fun x => !set.contains x) (s.drop start) start

/-- `s.at(pos)`: the character at `pos`, `none` when it throws
`std::out_of_range` (`pos ≥ s.size()`). -/
def string_at (s : List Char) (pos : Nat) : Option Char := s[pos]?

/-- `s.front()`: the first character; `none` on the empty string (undefined
behaviour in C++). -/
def front (s : List Char) : Option Char := s.head?

/-- `s.substr(pos, count)`: `none` when it throws `std::out_of_range`
(`pos > s.size()`), otherwise the characters `[pos, pos + count)` cut at the
end of the string. -/
def substr (s : List Char) (pos count : Nat) : Option (List Char) :=
  if s.length < pos then none else some ((s.drop pos).take count)

/-- `isspace` in the "C" locale. -/
def isspace (c : Char) : Bool :=
  c == ' ' || c == '\t' || c == '\n' || c == '\x0b' || c == '\x0c' || c == '\r'

/-- `isdigit`. -/
def isdigit (c : Char) : Bool := '0'.toNat ≤ c.toNat && c.toNat ≤ '9'.toNat

/-- Value of a run of decimal digits, most significant first. -/
def digits_value (ds : List Char) : Nat :=
  ds.foldl (fun acc c => 10 * acc + (c.toNat - '0'.toNat)) 0

/-- `INT_MAX` of a 32-bit `int`. -/
def INT_MAX : Int := 2147483647

/-- `INT_MIN` of a 32-bit `int`. -/
def INT_MIN : Int := -2147483648

/-- `std::stoi(s)` (base 10, no position output): skip leading white space, read
an optional sign and the longest run of digits.  `none` stands for the two
exceptions it can throw: `std::invalid_argument` when there is no digit, and
`std::out_of_range` when the value does not fit an `int`. -/
def stoi (s : List Char) : Option Int :=
  let s1 := s.dropWhile isspace
  let neg : Bool := s1.head? == some '-'
  let s2 := if s1.head? == some '-' || s1.head? == some '+' then s1.tail else s1
  let ds := s2.takeWhile isdigit
  if ds.isEmpty then none
  else
    let v : Int := if neg then - (digits_value ds : Int) else (digits_value ds : Int)
    if INT_MIN ≤ v ∧ v ≤ INT_MAX then some v else none

/-- `std::to_string` on an integer: the decimal numeral, with a leading `-`
for a negative value. -/
def to_string (i : Int) : List Char := (toString i).toList

end std

/-! ## `format_placeholder` (src/format_placeholder.h) -/

/-- Masks of `enum Flags`. -/
def Flags.MINUS : Nat := 0x1
/-- Mask `PLUS`. -/
def Flags.PLUS : Nat := 0x2
/-- Mask `SPACE`. -/
def Flags.SPACE : Nat := 0x4
/-- Mask `ZERO`. -/
def Flags.ZERO : Nat := 0x8
/-- Mask `HASH`. -/
def Flags.HASH : Nat := 0x10

/-- The `enum Type` of the placeholder. -/
inductive PlaceholderType
  | TYPE_DEFAULT
  | TYPE_SIGNED_INT
  | TYPE_UNSIGNED_INT
  | TYPE_OCT
  | TYPE_HEX_UPPER
  | TYPE_HEX_LOWER
  deriving DecidableEq

/-- The `enum NumFieldStatus`. -/
inductive NumFieldStatus
  | NUM_FIELD_DEFAULT
  | NUM_FIELD_SPECIFIED
  | NUM_FIELD_CUSTOMIZE
  deriving DecidableEq

/-- The `struct num_field`; its default constructor gives
`{NUM_FIELD_DEFAULT, -1}`. -/
structure num_field where
  status : NumFieldStatus := NumFieldStatus.NUM_FIELD_DEFAULT
  num : Int := -1
  deriving DecidableEq

/-- The data members of `class format_placeholder`. -/
structure format_placeholder where
  param : Int
  flags : Nat
  type : PlaceholderType
  width : num_field
  precision : num_field
  deriving DecidableEq

namespace format_placeholder

open std

/-- The `while` loop opening `parse_num_field`:
`while (start < end && spec.at(start) == '0') start++;` returning the final
`start`. -/
def skip_leading_zero (spec : List Char) (end_ : Nat) : Nat → Nat → Option Nat
  | 0, _ => none
  | fuel + 1, start =>
    if start < end_ then
      match string_at spec start with
      | none => none
      | some c => if c = '0' then skip_leading_zero spec end_ fuel (start + 1) else some start
    else some start

/-- `parse_num_field(field, spec, start, end)`, returning the updated field. -/
def parse_num_field (field : num_field) (spec : List Char) (start end_ : Nat) :
    Option num_field :=
  match skip_leading_zero spec end_ (spec.length + 1) start with
  | none => none
  | some start =>
    if start = end_ then some field
    else
      match string_at spec start with
      | none => none
      | some c =>
        if c = '*' ∧ end_ - start = 1 then
          some { field with status := NumFieldStatus.NUM_FIELD_CUSTOMIZE }
        else
          -- try { field.num = stoi(substr(..)); if (field.num > 0) ... } catch { field.num = -1; }
          match (substr spec start (end_ - start)).bind stoi with
          | some n =>
            if n > 0 then some { status := NumFieldStatus.NUM_FIELD_SPECIFIED, num := n }
            else some { field with num := n }
          | none => some { field with num := -1 }

/-- `parse_param(spec, start)`: the updated object and the returned offset. -/
def parse_param (self : format_placeholder) (spec : List Char) (start : Nat) :
    Option (format_placeholder × Nat) :=
  match find spec '$' start with
  | none => some (self, start)
  | some pos =>
    -- try { param = stoi(spec.substr(start, pos)); } catch (const std::exception&) { }
    match (substr spec start pos).bind stoi with
    | some n => some ({ self with param := n }, pos + 1)
    | none => some (self, pos + 1)

/-- The `for` loop of `parse_flags`, carrying `flags` and `pos`. -/
def parse_flags_loop (spec : List Char) : Nat → Nat → Nat → Option (Nat × Nat)
  | 0, _, _ => none
  | fuel + 1, flags, pos =>
    if pos = spec.length then some (flags, pos)
    else
      match string_at spec pos with
      | none => none
      | some c =>
        if c = '-' then parse_flags_loop spec fuel (flags ||| Flags.MINUS) (pos + 1)
        else if c = '+' then parse_flags_loop spec fuel (flags ||| Flags.PLUS) (pos + 1)
        else if c = ' ' then parse_flags_loop spec fuel (flags ||| Flags.SPACE) (pos + 1)
        else if c = '0' then parse_flags_loop spec fuel (flags ||| Flags.ZERO) (pos + 1)
        else if c = '#' then parse_flags_loop spec fuel (flags ||| Flags.HASH) (pos + 1)
        else some (flags, pos)

/-- `parse_flags(spec, start)`. -/
def parse_flags (self : format_placeholder) (spec : List Char) (start : Nat) :
    Option (format_placeholder × Nat) :=
  match parse_flags_loop spec (spec.length + 1) self.flags start with
  | none => none
  | some (flags, pos) => some ({ self with flags := flags }, pos)

/-- The character set `"0123456789*"` of the numeric fields. -/
def num_chars : List Char := "0123456789*".toList

/-- The two statements shared by `parse_width` and `parse_precision`:
`pos = spec.find_first_not_of("0123456789*", start);`
`if (pos == std::string::npos) pos = spec.length();`. -/
def num_run_end (spec : List Char) (start : Nat) : Nat :=
  match find_first_not_of spec num_chars start with
  | none => spec.length
  | some pos => pos

/-- `parse_width(spec, start)`. -/
def parse_width (self : format_placeholder) (spec : List Char) (start : Nat) :
    Option (format_placeholder × Nat) :=
  let pos := num_run_end spec start
  match parse_num_field self.width spec start pos with
  | none => none
  | some w => some ({ self with width := w }, pos)

/-- `parse_precision(spec, start)`; the test is on `spec.front()`. -/
def parse_precision (self : format_placeholder) (spec : List Char) (start : Nat) :
    Option (format_placeholder × Nat) :=
  match front spec with
  | none => none
  | some c =>
    if c ≠ '.' then some (self, start)
    else
      let start := start + 1
      let pos := num_run_end spec start
      match parse_num_field self.precision spec start pos with
      | none => none
      | some p => some ({ self with precision := p }, pos)

/-- `parse_type(spec, start)`; the switch is on `spec.front()`. -/
def parse_type (self : format_placeholder) (spec : List Char) (start : Nat) :
    Option (format_placeholder × Nat) :=
  match front spec with
  | none => none
  | some t =>
    if t = 'd' ∨ t = 'i' then
      some ({ self with type := PlaceholderType.TYPE_SIGNED_INT }, start + 1)
    else if t = 'u' then
      some ({ self with type := PlaceholderType.TYPE_UNSIGNED_INT }, start + 1)
    else if t = 'o' then
      some ({ self with type := PlaceholderType.TYPE_OCT }, start + 1)
    else if t = 'X' then
      some ({ self with type := PlaceholderType.TYPE_HEX_UPPER }, start + 1)
    else if t = 'x' then
      some ({ self with type := PlaceholderType.TYPE_HEX_LOWER }, start + 1)
    else some (self, start)

/-- The type `parse_func` of the stage table. -/
abbrev parse_func := format_placeholder → List Char → Nat → Option (format_placeholder × Nat)

/-- The table `tbl` of `parse`. -/
def tbl : List parse_func :=
  [parse_param, parse_flags, parse_width, parse_precision, parse_type]

/-- The `for` loop of `parse` over the remaining table entries: stop as soon
as `pos >= spec.length()`. -/
def parse_loop (spec : List Char) : List parse_func → format_placeholder → Nat →
    Option format_placeholder
  | [], self, _ => some self
  | f :: fs, self, pos =>
    if pos ≥ spec.length then some self
    else
      match f self spec pos with
      | none => none
      | some (self', pos') => parse_loop spec fs self' pos'

/-- `parse(spec)`. -/
def parse (self : format_placeholder) (spec : List Char) : Option format_placeholder :=
  parse_loop spec tbl self 0

/-- The constructor `format_placeholder(const char* spec)`.  Its initialiser
list sets `param(-1)` and `type(TYPE_DEFAULT)`, `width` and `precision` are
default-constructed, and `flags` is not initialised: `uninit_flags` is the
value the member happens to hold when `parse` starts. -/
def init (uninit_flags : Nat) (spec : List Char) : Option format_placeholder :=
  parse { param := -1, flags := uninit_flags, type := PlaceholderType.TYPE_DEFAULT,
          width := {}, precision := {} } spec

/-- A numeric field is well formed when `SPECIFIED` comes with a positive number. -/
def num_field_ok (f : num_field) : Prop :=
  f.status = NumFieldStatus.NUM_FIELD_SPECIFIED → 0 < f.num

/-- The invariant of the parsed object: both numeric fields are well formed. -/
def fields_ok (p : format_placeholder) : Prop :=
  num_field_ok p.width ∧ num_field_ok p.precision

/-- The characters the flags stage consumes: `-`, `+`, space, `0`, `#`. -/
def is_flag_char (c : Char) : Bool :=
  c == '-' || c == '+' || c == ' ' || c == '0' || c == '#'

/-- The mask a flag character stands for (`0` for any other character). -/
def flag_bit (c : Char) : Nat :=
  if c = '-' then Flags.MINUS
  else if c = '+' then Flags.PLUS
  else if c = ' ' then Flags.SPACE
  else if c = '0' then Flags.ZERO
  else if c = '#' then Flags.HASH
  else 0

/-- The letter table of the type stage, read on the first character of the
text: `d`/`i` signed, `u` unsigned, `o` octal, `X` upper hex, `x` lower hex. -/
def type_of_first (spec : List Char) (t : PlaceholderType) : Prop :=
  ∃ c, spec.head? = some c ∧
    (((c = 'd' ∨ c = 'i') ∧ t = PlaceholderType.TYPE_SIGNED_INT) ∨
      (c = 'u' ∧ t = PlaceholderType.TYPE_UNSIGNED_INT) ∨
      (c = 'o' ∧ t = PlaceholderType.TYPE_OCT) ∨
      (c = 'X' ∧ t = PlaceholderType.TYPE_HEX_UPPER) ∨
      (c = 'x' ∧ t = PlaceholderType.TYPE_HEX_LOWER))

/-- The union of the masks of the characters of a text. -/
def flag_bits : List Char → Nat
  | [] => 0
  | c :: cs => flag_bit c ||| flag_bits cs

end format_placeholder

/-! ## Value renderers and `formatter` (src/formatter.h) -/

/-- `format_type<char>::format`. -/
def format_type_char.format (c : Char) : List Char := [c]

/-- `format_type<Int>::format` for an integral type: `std::to_string(i)`. -/
def format_type_int.format (i : Int) : List Char := std.to_string i

/-- `format_type<const char*>::format`: the C string itself. -/
def format_type_cstring.format (s : List Char) : List Char := s

/-- `struct format_args`: the bound nullary renderer `f` of one argument. -/
structure format_args where
  f : Unit → List Char

/-- `format_args(Int i)`: binds `format_type<Int>::format` to `i`. -/
def format_args.of_int (i : Int) : format_args := ⟨fun _ => format_type_int.format i⟩

/-- `format_args(CString s)`: binds `format_type<const char*>::format` to `s`. -/
def format_args.of_cstring (s : List Char) : format_args :=
  ⟨fun _ => format_type_cstring.format s⟩

/-- `format_args(const Custom& c)`: binds `format_type<Custom>::format` to `c`. -/
def format_args.of_custom {C : Type} (fmt : C → List Char) (c : C) : format_args :=
  ⟨fun _ => fmt c⟩

/-- `struct parse_context`; its constructor gives `{0, false, false}`.
`current_idx` only grows by one while it is below the number of arguments, so
the `int` never overflows and is kept as a `Nat`. -/
structure parse_context where
  current_idx : Nat := 0
  left_bracket : Bool := false
  right_bracket : Bool := false
  deriving DecidableEq

/-- The data members of `class formatter`: the template `fmt` (the characters
of the C string, which `while (*ptr)` visits in order) and the array `args`. -/
structure formatter where
  fmt : List Char
  args : List format_args

namespace formatter

/-- The text appended for a placeholder without argument. -/
def INVALID : List Char := "<INVALID>".toList

/-- `proc_on_left_bracket(ctx, c, result)`: the updated `ctx` and `result`. -/
def proc_on_left_bracket (self : formatter) (ctx : parse_context) (c : Char)
    (result : List Char) : parse_context × List Char :=
  if c = '{' then
    ({ ctx with left_bracket := false }, result ++ [c])
  else if c = '}' then
    if h : ctx.current_idx ≥ self.args.length then
      ({ ctx with left_bracket := false }, result ++ INVALID)
    else
      have hlt : ctx.current_idx < self.args.length := Nat.lt_of_not_le h
      ({ ctx with current_idx := ctx.current_idx + 1, left_bracket := false },
        result ++ (self.args[ctx.current_idx]).f ())
  else
    -- TODO, placeholder, skip now
    (ctx, result)

/-- `proc_on_right_bracket(ctx, c, result)`. -/
def proc_on_right_bracket (_self : formatter) (ctx : parse_context) (c : Char)
    (result : List Char) : parse_context × List Char :=
  if c = '}' then
    ({ ctx with right_bracket := false }, result ++ [c])
  else
    -- invalid, just skip
    (ctx, result)

/-- `parse(ctx, c, result)`. -/
def parse (self : formatter) (ctx : parse_context) (c : Char) (result : List Char) :
    parse_context × List Char :=
  if ctx.left_bracket then proc_on_left_bracket self ctx c result
  else if ctx.right_bracket then proc_on_right_bracket self ctx c result
  else if c = '{' then ({ ctx with left_bracket := true }, result)
  else if c = '}' then ({ ctx with right_bracket := true }, result)
  else (ctx, result ++ [c])

/-- The loop `while (*ptr) { parse(ctx, *ptr, result); ptr++; }` over the
characters still to be read. -/
def format_loop (self : formatter) : List Char → parse_context → List Char →
    parse_context × List Char
  | [], ctx, result => (ctx, result)
  | c :: rest, ctx, result =>
    format_loop self rest (parse self ctx c result).1 (parse self ctx c result).2

/-- The state in which `format` leaves its loop: the final `ctx` and `result`. -/
def run (self : formatter) : parse_context × List Char :=
  format_loop self self.fmt {} []

/-- `format()`: the `result` string. -/
def format (self : formatter) : List Char := (run self).2

end formatter

/-- The escaping of a text the engine undoes: every `{` is written `{{` and
every `}` is written `}}`. -/
def escape_braces : List Char → List Char
  | [] => []
  | c :: cs =>
    if c = '{' then '{' :: '{' :: escape_braces cs
    else if c = '}' then '}' :: '}' :: escape_braces cs
    else c :: escape_braces cs

/-! ## Container renderers (src/std_format.h) -/

/-- `format_type<std::string>::format`. -/
def format_type_string.format (s : List Char) : List Char := s

namespace format_type_map

/-- `format_type<std::map<K, V>>::format(m)`.  The map is given by the sequence
of its pairs as `for (auto& p : m)` visits them, that is in ascending key
order; `fmtK` and `fmtV` are `format_type<K>::format` and
`format_type<V>::format`.  `result.erase(result.end() - 1)` removes the last
character. -/
def format {K V : Type} (fmtK : K → List Char) (fmtV : V → List Char)
    (m : List (K × V)) : List Char :=
  let result : List Char := []
  let result := result ++ "map(".toList
  let result := m.foldl
    (fun result p =>
      ((((result ++ " \x7b".toList) ++ fmtK p.1) ++ ", ".toList) ++ fmtV p.2) ++ "\x7d,".toList)
    result
  let result := if m.length > 0 then result.eraseIdx (result.length - 1) else result
  result ++ " )".toList

end format_type_map

namespace format_type_vector

/-- `format_type<std::vector<V>>::format(v)`; `fmtV` is
`format_type<V>::format`.  `result.erase(result.end() - 2)` is the one-iterator
overload of `erase`: it removes the single character that stands two before
the end. -/
def format {V : Type} (fmtV : V → List Char) (v : List V) : List Char :=
  let result : List Char := []
  let result := result ++ "vector( ".toList
  let result := v.foldl (fun result value => (result ++ fmtV value) ++ ", ".toList) result
  let result := if v.length > 0 then result.eraseIdx (result.length - 2) else result
  result ++ ")".toList

end format_type_vector

/-! ## Facts about the library model -/

namespace std

theorem find_idx_bounds (p : Char → Bool) :
    ∀ (cs : List Char) (i j : Nat), find_idx p cs i = some j → i ≤ j ∧ j < i + cs.length := by
  intro cs
  induction cs with
  | nil => intro i j h; simp [find_idx] at h
  | cons c cs ih =>
    intro i j h
    simp only [find_idx] at h
    split at h
    · simp only [Option.some.injEq] at h
      subst h
      simp
    · have := ih (i + 1) j h
      simp only [List.length_cons]
      omega

theorem find_first_not_of_bounds (s set : List Char) (start pos : Nat)
    (h : find_first_not_of s set start = some pos) : start ≤ pos ∧ pos < s.length := by
  have hb := find_idx_bounds _ _ _ _ h
  simp only [List.length_drop] at hb
  omega

theorem string_at_of_lt (s : List Char) (pos : Nat) (h : pos < s.length) :
    ∃ c, string_at s pos = some c :=
  ⟨s[pos], by simp [string_at, List.getElem?_eq_getElem h]⟩

end std

/-! ## Facts about `format_placeholder` -/

namespace format_placeholder

open std

theorem skip_leading_zero_some (spec : List Char) (end_ : Nat) (hend : end_ ≤ spec.length) :
    ∀ (fuel start : Nat), start ≤ end_ → end_ - start < fuel →
      ∃ s, skip_leading_zero spec end_ fuel start = some s ∧ start ≤ s ∧ s ≤ end_ := by
  intro fuel
  induction fuel with
  | zero => intro start _ h; omega
  | succ fuel ih =>
    intro start hse hfuel
    simp only [skip_leading_zero]
    by_cases hlt : start < end_
    · obtain ⟨c, hc⟩ := string_at_of_lt spec start (by omega)
      simp only [hlt, if_true, hc]
      by_cases h0 : c = '0'
      · obtain ⟨s, hs, h1, h2⟩ := ih (start + 1) (by omega) (by omega)
        exact ⟨s, by simp [h0, hs], by omega, h2⟩
      · exact ⟨start, by simp [h0], le_refl _, hse⟩
    · exact ⟨start, by simp [hlt], le_refl _, hse⟩

theorem parse_num_field_some (field : num_field) (spec : List Char) (start end_ : Nat)
    (hse : start ≤ end_) (hend : end_ ≤ spec.length)
    (hfresh : field.status ≠ NumFieldStatus.NUM_FIELD_SPECIFIED) :
    ∃ f, parse_num_field field spec start end_ = some f ∧ num_field_ok f := by
  obtain ⟨s, hs, h1, h2⟩ :=
    skip_leading_zero_some spec end_ hend (spec.length + 1) start hse (by omega)
  simp only [parse_num_field, hs]
  by_cases he : s = end_
  · rw [if_pos he]
    exact ⟨field, rfl, fun h => absurd h hfresh⟩
  · obtain ⟨c, hc⟩ := string_at_of_lt spec s (by omega)
    rw [if_neg he]
    simp only [hc]
    by_cases hstar : c = '*' ∧ end_ - s = 1
    · rw [if_pos hstar]
      exact ⟨_, rfl, fun h => by simp at h⟩
    · rw [if_neg hstar]
      cases hn : (substr spec s (end_ - s)).bind stoi with
      | none => exact ⟨_, rfl, fun h => absurd h hfresh⟩
      | some n =>
        simp only
        by_cases hpos : n > 0
        · rw [if_pos hpos]
          exact ⟨_, rfl, fun _ => hpos⟩
        · rw [if_neg hpos]
          exact ⟨_, rfl, fun h => absurd h hfresh⟩

theorem parse_param_some (self : format_placeholder) (spec : List Char) (start : Nat) :
    ∃ self' pos', parse_param self spec start = some (self', pos') ∧
      self'.width = self.width ∧ self'.precision = self.precision := by
  unfold parse_param
  cases find spec '$' start with
  | none => exact ⟨_, _, rfl, rfl, rfl⟩
  | some pos =>
    simp only
    cases (substr spec start pos).bind stoi with
    | none => exact ⟨_, _, rfl, rfl, rfl⟩
    | some n => exact ⟨_, _, rfl, rfl, rfl⟩

theorem parse_flags_loop_some (spec : List Char) :
    ∀ (fuel flags pos : Nat), pos ≤ spec.length → spec.length - pos < fuel →
      ∃ r, parse_flags_loop spec fuel flags pos = some r := by
  intro fuel
  induction fuel with
  | zero => intro _ pos _ h; omega
  | succ fuel ih =>
    intro flags pos hle hfuel
    simp only [parse_flags_loop]
    by_cases hp : pos = spec.length
    · rw [if_pos hp]
      exact ⟨_, rfl⟩
    · obtain ⟨c, hc⟩ := string_at_of_lt spec pos (by omega)
      have hrec : ∀ fl, ∃ r, parse_flags_loop spec fuel fl (pos + 1) = some r :=
        fun fl => ih fl (pos + 1) (by omega) (by omega)
      rw [if_neg hp]
      simp only [hc]
      split_ifs
      · exact hrec _
      · exact hrec _
      · exact hrec _
      · exact hrec _
      · exact hrec _
      · exact ⟨_, rfl⟩

theorem parse_flags_some (self : format_placeholder) (spec : List Char) (start : Nat)
    (hs : start ≤ spec.length) :
    ∃ self' pos', parse_flags self spec start = some (self', pos') ∧
      self'.width = self.width ∧ self'.precision = self.precision := by
  obtain ⟨⟨fl, pos⟩, hr⟩ :=
    parse_flags_loop_some spec (spec.length + 1) self.flags start hs (by omega)
  simp only [parse_flags, hr]
  exact ⟨_, _, rfl, rfl, rfl⟩

theorem num_run_end_bounds (spec : List Char) (start : Nat) (hs : start ≤ spec.length) :
    start ≤ num_run_end spec start ∧ num_run_end spec start ≤ spec.length := by
  unfold num_run_end
  cases h : find_first_not_of spec num_chars start with
  | none => exact ⟨hs, le_refl _⟩
  | some pos =>
    have := find_first_not_of_bounds _ _ _ _ h
    simp only
    omega

theorem parse_width_some (self : format_placeholder) (spec : List Char) (start : Nat)
    (hs : start ≤ spec.length)
    (hfresh : self.width.status ≠ NumFieldStatus.NUM_FIELD_SPECIFIED) :
    ∃ self' pos', parse_width self spec start = some (self', pos') ∧
      num_field_ok self'.width ∧ self'.precision = self.precision := by
  obtain ⟨h1, h2⟩ := num_run_end_bounds spec start hs
  obtain ⟨f, hf, hok⟩ := parse_num_field_some self.width spec start _ h1 h2 hfresh
  simp only [parse_width, hf]
  exact ⟨_, _, rfl, hok, rfl⟩

theorem parse_precision_some (self : format_placeholder) (spec : List Char) (start : Nat)
    (hs : start < spec.length)
    (hfresh : self.precision.status ≠ NumFieldStatus.NUM_FIELD_SPECIFIED) :
    ∃ self' pos', parse_precision self spec start = some (self', pos') ∧
      self'.width = self.width ∧ num_field_ok self'.precision := by
  have hok0 : num_field_ok self.precision := fun h => absurd h hfresh
  cases spec with
  | nil => simp at hs
  | cons c cs =>
    simp only [parse_precision, front, List.head?_cons]
    by_cases hc : c = '.'
    · obtain ⟨h1, h2⟩ := num_run_end_bounds (c :: cs) (start + 1) (by omega)
      obtain ⟨f, hf, hok⟩ := parse_num_field_some self.precision (c :: cs) (start + 1) _ h1 h2 hfresh
      rw [if_neg (not_not.mpr hc)]
      simp only [hf]
      exact ⟨_, _, rfl, rfl, hok⟩
    · rw [if_pos hc]
      exact ⟨_, _, rfl, rfl, hok0⟩

theorem parse_type_some (self : format_placeholder) (spec : List Char) (start : Nat)
    (hs : start < spec.length) :
    ∃ self' pos', parse_type self spec start = some (self', pos') ∧
      self'.width = self.width ∧ self'.precision = self.precision := by
  cases spec with
  | nil => simp at hs
  | cons c cs =>
    simp only [parse_type, front, List.head?_cons]
    split_ifs <;> exact ⟨_, _, rfl, rfl, rfl⟩

/-- One turn of the `for` loop of `parse`: the property holds at the `break`,
and when the stage runs it returns and the rest of the loop establishes it. -/
theorem parse_loop_step (spec : List Char) (f : parse_func) (fs : List parse_func)
    (self : format_placeholder) (pos : Nat) (P : format_placeholder → Prop)
    (hbreak : P self)
    (hstage : pos < spec.length → ∃ self' pos', f self spec pos = some (self', pos') ∧
      ∃ p, parse_loop spec fs self' pos' = some p ∧ P p) :
    ∃ p, parse_loop spec (f :: fs) self pos = some p ∧ P p := by
  simp only [parse_loop]
  by_cases hp : pos ≥ spec.length
  · rw [if_pos hp]
    exact ⟨self, rfl, hbreak⟩
  · obtain ⟨self', pos', hf, p, hp', hP⟩ := hstage (by omega)
    rw [if_neg hp]
    simp only [hf, hp']
    exact ⟨p, rfl, hP⟩

theorem parse_fields_ok (self : format_placeholder) (spec : List Char)
    (hw : self.width.status ≠ NumFieldStatus.NUM_FIELD_SPECIFIED)
    (hp : self.precision.status ≠ NumFieldStatus.NUM_FIELD_SPECIFIED) :
    ∃ p, parse self spec = some p ∧ fields_ok p := by
  have fresh_ok : ∀ f : num_field, f.status ≠ NumFieldStatus.NUM_FIELD_SPECIFIED →
      num_field_ok f := fun f h h' => absurd h' h
  unfold parse tbl
  refine parse_loop_step spec _ _ _ _ fields_ok ⟨fresh_ok _ hw, fresh_ok _ hp⟩ ?_
  intro _
  obtain ⟨s1, p1, h1, hw1, hp1⟩ := parse_param_some self spec 0
  refine ⟨s1, p1, h1, ?_⟩
  rw [← hw1] at hw
  rw [← hp1] at hp
  refine parse_loop_step spec _ _ _ _ fields_ok ⟨fresh_ok _ hw, fresh_ok _ hp⟩ ?_
  intro hlt1
  obtain ⟨s2, p2, h2, hw2, hp2⟩ := parse_flags_some s1 spec p1 (by omega)
  refine ⟨s2, p2, h2, ?_⟩
  rw [← hw2] at hw
  rw [← hp2] at hp
  refine parse_loop_step spec _ _ _ _ fields_ok ⟨fresh_ok _ hw, fresh_ok _ hp⟩ ?_
  intro hlt2
  obtain ⟨s3, p3, h3, hw3, hp3⟩ := parse_width_some s2 spec p2 (by omega) hw
  refine ⟨s3, p3, h3, ?_⟩
  rw [← hp3] at hp
  refine parse_loop_step spec _ _ _ _ fields_ok ⟨hw3, fresh_ok _ hp⟩ ?_
  intro hlt3
  obtain ⟨s4, p4, h4, hw4, hp4⟩ := parse_precision_some s3 spec p3 hlt3 hp
  refine ⟨s4, p4, h4, ?_⟩
  rw [← hw4] at hw3
  refine parse_loop_step spec _ _ _ _ fields_ok ⟨hw3, hp4⟩ ?_
  intro hlt4
  obtain ⟨s5, p5, h5, hw5, hp5⟩ := parse_type_some s4 spec p4 hlt4
  refine ⟨s5, p5, h5, s5, rfl, ?_⟩
  rw [← hw5] at hw3
  rw [← hp5] at hp4
  exact ⟨hw3, hp4⟩

end format_placeholder

/-! ## Facts about `formatter` -/

namespace formatter

theorem format_loop_append (self : formatter) :
    ∀ (a b : List Char) (ctx : parse_context) (result : List Char),
      format_loop self (a ++ b) ctx result =
        format_loop self b (format_loop self a ctx result).1 (format_loop self a ctx result).2 := by
  intro a
  induction a with
  | nil => intro b ctx result; rfl
  | cons c a ih =>
    intro b ctx result
    simp only [List.cons_append, format_loop]
    exact ih b _ _

/-- Outside an escape, a text without braces is copied to the result. -/
theorem format_loop_literal (self : formatter) :
    ∀ (l : List Char) (idx : Nat) (result : List Char), '{' ∉ l → '}' ∉ l →
      format_loop self l ⟨idx, false, false⟩ result = (⟨idx, false, false⟩, result ++ l) := by
  intro l
  induction l with
  | nil => intro idx result _ _; simp [format_loop]
  | cons c l ih =>
    intro idx result h1 h2
    simp only [List.mem_cons, not_or] at h1 h2
    have hc1 : c ≠ '{' := fun h => h1.1 h.symm
    have hc2 : c ≠ '}' := fun h => h2.1 h.symm
    simp only [format_loop, parse, hc1, hc2, if_false, Bool.false_eq_true]
    rw [ih idx _ h1.2 h2.2]
    simp

/-- Outside an escape, `{}` with an argument left appends its text and moves
the counter on. -/
theorem format_loop_placeholder (self : formatter) (rest : List Char) (idx : Nat)
    (result : List Char) (h : idx < self.args.length) :
    format_loop self ('{' :: '}' :: rest) ⟨idx, false, false⟩ result =
      format_loop self rest ⟨idx + 1, false, false⟩ (result ++ (self.args[idx]).f ()) := by
  have hn : ¬ (idx ≥ self.args.length) := by omega
  simp [format_loop, parse, proc_on_left_bracket, hn]

/-- Outside an escape, `{}` with no argument left appends the sentinel and
keeps the counter. -/
theorem format_loop_placeholder_invalid (self : formatter) (rest : List Char) (idx : Nat)
    (result : List Char) (h : self.args.length ≤ idx) :
    format_loop self ('{' :: '}' :: rest) ⟨idx, false, false⟩ result =
      format_loop self rest ⟨idx, false, false⟩ (result ++ INVALID) := by
  simp [format_loop, parse, proc_on_left_bracket, h]

theorem format_loop_placeholders (self : formatter) :
    ∀ (ls : List (List Char)) (idx : Nat) (result : List Char),
      (∀ l ∈ ls, '{' ∉ l ∧ '}' ∉ l) → idx + ls.length ≤ self.args.length →
      format_loop self (ls.map (fun l => "{}".toList ++ l)).flatten ⟨idx, false, false⟩ result =
        (⟨idx + ls.length, false, false⟩,
          result ++ (List.zipWith (fun a l => a.f () ++ l) (self.args.drop idx) ls).flatten) := by
  intro ls
  induction ls with
  | nil => intro idx result _ _; simp [format_loop]
  | cons l ls ih =>
    intro idx result hbf hlen
    simp only [List.length_cons] at hlen
    have hidx : idx < self.args.length := by omega
    have hl := hbf l (List.mem_cons_self _ _)
    have hls : ∀ l' ∈ ls, '{' ∉ l' ∧ '}' ∉ l' := fun l' h' => hbf l' (List.mem_cons_of_mem _ h')
    have htxt : (List.map (fun l => "{}".toList ++ l) (l :: ls)).flatten =
        '{' :: '}' :: (l ++ (List.map (fun l => "{}".toList ++ l) ls).flatten) := by
      simp [List.flatten]
    rw [htxt, format_loop_placeholder self _ idx result hidx, format_loop_append,
      format_loop_literal self l _ _ hl.1 hl.2]
    simp only
    rw [ih (idx + 1) _ hls (by omega), List.drop_eq_getElem_cons hidx]
    simp [List.flatten, Nat.add_comm, Nat.add_left_comm]

theorem format_loop_escaped (self : formatter) :
    ∀ (s : List Char) (idx : Nat) (result : List Char),
      format_loop self (escape_braces s) ⟨idx, false, false⟩ result =
        (⟨idx, false, false⟩, result ++ s) := by
  intro s
  induction s with
  | nil => intro idx result; simp [escape_braces, format_loop]
  | cons c s ih =>
    intro idx result
    simp only [escape_braces]
    by_cases h1 : c = '{'
    · subst h1
      simp [format_loop, parse, proc_on_left_bracket, ih]
    · by_cases h2 : c = '}'
      · subst h2
        simp [format_loop, parse, proc_on_right_bracket, ih]
      · simp [format_loop, parse, h1, h2, ih]

theorem format_loop_valid_run (self : formatter) :
    ∀ (k idx : Nat) (result : List Char), idx + k ≤ self.args.length →
      format_loop self (List.replicate k "{}".toList).flatten ⟨idx, false, false⟩ result =
        (⟨idx + k, false, false⟩,
          result ++ (((self.args.drop idx).take k).map (fun a => a.f ())).flatten) := by
  intro k
  induction k with
  | zero => intro idx result _; simp [format_loop]
  | succ k ih =>
    intro idx result hlen
    have hidx : idx < self.args.length := by omega
    have htxt : (List.replicate (k + 1) "{}".toList).flatten =
        '{' :: '}' :: (List.replicate k "{}".toList).flatten := by
      simp [List.replicate_succ, List.flatten]
    rw [htxt, format_loop_placeholder self _ idx result hidx, ih (idx + 1) _ (by omega),
      List.drop_eq_getElem_cons hidx]
    simp [List.flatten, Nat.add_comm, Nat.add_left_comm]

theorem format_loop_invalid_run (self : formatter) :
    ∀ (k idx : Nat) (result : List Char), self.args.length ≤ idx →
      format_loop self (List.replicate k "{}".toList).flatten ⟨idx, false, false⟩ result =
        (⟨idx, false, false⟩, result ++ (List.replicate k "<INVALID>".toList).flatten) := by
  intro k
  induction k with
  | zero => intro idx result _; simp [format_loop]
  | succ k ih =>
    intro idx result hlen
    have htxt : (List.replicate (k + 1) "{}".toList).flatten =
        '{' :: '}' :: (List.replicate k "{}".toList).flatten := by
      simp [List.replicate_succ, List.flatten]
    rw [htxt, format_loop_placeholder_invalid self _ idx result hlen, ih idx _ hlen]
    simp [List.replicate_succ, List.flatten, INVALID]

end formatter

/-! ## Facts about the container renderers -/

theorem foldl_append_eq_flatten {α : Type} (g : α → List Char) :
    ∀ (v : List α) (result : List Char),
      v.foldl (fun result x => result ++ g x) result = result ++ (v.map g).flatten := by
  intro v
  induction v with
  | nil => intro result; simp
  | cons x v ih => intro result; simp [List.foldl_cons, ih, List.flatten]

theorem flatten_sep_eq_intercalate (sep : List Char) :
    ∀ (x : List Char) (xs : List (List Char)),
      ((x :: xs).map (fun t => t ++ sep)).flatten = List.intercalate sep (x :: xs) ++ sep := by
  intro x xs
  induction xs generalizing x with
  | nil => simp [List.intercalate, List.flatten]
  | cons y ys ih =>
    have h := ih y
    simp only [List.map_cons, List.flatten_cons] at h ⊢
    rw [h]
    simp [List.intercalate, List.intersperse, List.flatten]

theorem eraseIdx_before_last (a : List Char) (x y : Char) :
    (a ++ [x, y]).eraseIdx ((a ++ [x, y]).length - 2) = a ++ [y] := by
  have h : (a ++ [x, y]).length - 2 = a.length := by simp
  rw [h, List.eraseIdx_append_of_length_le (le_refl _)]
  simp

theorem eraseIdx_last (a : List Char) (x : Char) :
    (a ++ [x]).eraseIdx ((a ++ [x]).length - 1) = a := by
  have h : (a ++ [x]).length - 1 = a.length := by simp
  rw [h, List.eraseIdx_append_of_length_le (le_refl _)]
  simp

theorem or_mask_and_mask (f m : Nat) : (f ||| m) &&& m = m := by
  apply Nat.eq_of_testBit_eq
  intro i
  simp only [Nat.testBit_and, Nat.testBit_or]
  cases f.testBit i <;> cases m.testBit i <;> rfl

/-! ## Properties of the placeholder parser -/

namespace format_placeholder

open std

/-- C1. Parsing the specifier text `5$-08.3d` returns param 5, the flags MINUS
and ZERO added to the initial content of `flags`, and width `{SPECIFIED, 8}`;
but precision is left at `{DEFAULT, -1}` and type at `TYPE_DEFAULT`, because
`parse_precision` and `parse_type` look at `spec.front()` (here `5`) and not at
the character at the current offset. -/
theorem init_full_specifier (uninit_flags : Nat) :
    init uninit_flags "5$-08.3d".toList = some
      { param := 5,
        flags := uninit_flags ||| Flags.MINUS ||| Flags.ZERO,
        type := PlaceholderType.TYPE_DEFAULT,
        width := { status := NumFieldStatus.NUM_FIELD_SPECIFIED, num := 8 },
        precision := { status := NumFieldStatus.NUM_FIELD_DEFAULT, num := -1 } } := by
  rfl

/-- C5. For every specifier text, parsing returns a placeholder, and in it a
numeric field (width, precision) whose status is SPECIFIED carries a number
strictly greater than 0. -/
theorem init_specified_positive (uninit_flags : Nat) (spec : List Char) :
    ∃ p, init uninit_flags spec = some p ∧
      (p.width.status = NumFieldStatus.NUM_FIELD_SPECIFIED → 0 < p.width.num) ∧
      (p.precision.status = NumFieldStatus.NUM_FIELD_SPECIFIED → 0 < p.precision.num) :=
  parse_fields_ok _ spec (fun h => by cases h) (fun h => by cases h)

/-- C5, at the text `.25`: the precision is SPECIFIED and its number is positive. -/
theorem init_specified_positive_witness :
    ∃ p, init 0 ".25".toList = some p ∧
      p.precision.status = NumFieldStatus.NUM_FIELD_SPECIFIED ∧ 0 < p.precision.num := by
  obtain ⟨p, hp, _, hprec⟩ := init_specified_positive 0 ".25".toList
  have he : init 0 ".25".toList = some
      { param := -1, flags := 0, type := PlaceholderType.TYPE_DEFAULT, width := {},
        precision := { status := NumFieldStatus.NUM_FIELD_SPECIFIED, num := 25 } } := by
    decide
  have hpe := hp.symm.trans he
  simp only [Option.some.injEq] at hpe
  subst hpe
  exact ⟨_, he, rfl, hprec rfl⟩

/-- C6. Parsing the specifier text `*.*d` returns width status CUSTOMIZE, but
precision stays `{DEFAULT, -1}` and type stays `TYPE_DEFAULT`: `spec.front()`
is `*`, so neither the precision stage nor the type stage fires, and the scan
stops at offset 1. -/
theorem init_star_specifier (uninit_flags : Nat) :
    init uninit_flags "*.*d".toList = some
      { param := -1,
        flags := uninit_flags,
        type := PlaceholderType.TYPE_DEFAULT,
        width := { status := NumFieldStatus.NUM_FIELD_CUSTOMIZE, num := -1 },
        precision := { status := NumFieldStatus.NUM_FIELD_DEFAULT, num := -1 } } := by
  rfl

/-- C7, as stated, fails: parsing `007d` does not give a width of status
DEFAULT together with the ZERO flag. -/
theorem init_007d_width_not_default :
    ¬ ∃ p, init 0 "007d".toList = some p ∧
      p.width.status = NumFieldStatus.NUM_FIELD_DEFAULT ∧ p.flags &&& Flags.ZERO = Flags.ZERO := by
  rintro ⟨p, hp, hw, _⟩
  have he : init 0 "007d".toList = some
      { param := -1, flags := 8, type := PlaceholderType.TYPE_DEFAULT,
        width := { status := NumFieldStatus.NUM_FIELD_SPECIFIED, num := 7 },
        precision := {} } := by
    decide
  have hpe := hp.symm.trans he
  simp only [Option.some.injEq] at hpe
  subst hpe
  exact absurd hw (by decide)

/-- C7, amended. Parsing `007d` returns a width that is SPECIFIED with value 7
(the flags stage takes the two leading zeros, the width stage reads `7`) and
a flag set that contains ZERO. -/
theorem init_007d_width_seven (uninit_flags : Nat) :
    ∃ p, init uninit_flags "007d".toList = some p ∧
      p.width = { status := NumFieldStatus.NUM_FIELD_SPECIFIED, num := 7 } ∧
      p.flags &&& Flags.ZERO = Flags.ZERO :=
  ⟨{ param := -1, flags := uninit_flags ||| Flags.ZERO ||| Flags.ZERO,
     type := PlaceholderType.TYPE_DEFAULT,
     width := { status := NumFieldStatus.NUM_FIELD_SPECIFIED, num := 7 },
     precision := {} }, rfl, rfl, or_mask_and_mask _ _⟩

end format_placeholder

/-! ## Properties of the template engine -/

namespace formatter

/-- C2. A template `l0 {} l1 {} ... {} ln` whose literal parts hold no brace,
with at least `n` arguments, renders as `l0 a1 l1 ... an ln`, where `ak` is the
text of the k-th argument: the placeholders take the arguments in order, one
each. -/
theorem format_placeholders_in_order (l0 : List Char) (ls : List (List Char))
    (args : List format_args) (h0 : '{' ∉ l0 ∧ '}' ∉ l0)
    (hls : ∀ l ∈ ls, '{' ∉ l ∧ '}' ∉ l) (hn : ls.length ≤ args.length) :
    format ⟨l0 ++ (ls.map (fun l => "{}".toList ++ l)).flatten, args⟩ =
      l0 ++ (List.zipWith (fun a l => a.f () ++ l) args ls).flatten := by
  simp only [format, run]
  rw [format_loop_append, format_loop_literal _ l0 0 [] h0.1 h0.2]
  simp only
  rw [format_loop_placeholders _ ls 0 _ hls (by simpa using hn)]
  simp

/-- C2, at the template `x={}, y={}` with the arguments 1 and 2. -/
theorem format_placeholders_in_order_witness :
    format ⟨"x={}, y={}".toList, [format_args.of_int 1, format_args.of_int 2]⟩ =
      "x=1, y=2".toList :=
  format_placeholders_in_order "x=".toList [", y=".toList, []]
    [format_args.of_int 1, format_args.of_int 2] (by decide) (by decide) (by decide)

/-- C3. Rendering the escaped form of a text (every `{` doubled, every `}`
doubled) returns the text itself, whatever the arguments, and the argument
counter is still 0 at the end: no argument is consumed. -/
theorem format_escape_round_trip (s : List Char) (args : List format_args) :
    format ⟨escape_braces s, args⟩ = s ∧
      (run ⟨escape_braces s, args⟩).1.current_idx = 0 := by
  simp only [format, run]
  have h := format_loop_escaped ⟨escape_braces s, args⟩ s 0 []
  have h' : format_loop ⟨escape_braces s, args⟩ (escape_braces s) {} [] =
      (⟨0, false, false⟩, [] ++ s) := h
  rw [h']
  exact ⟨rfl, rfl⟩

/-- C3, at the text `{a}`, escaped as `{{a}}`, with no argument. -/
theorem format_escape_round_trip_witness :
    format ⟨"{{a}}".toList, []⟩ = "{a}".toList :=
  (format_escape_round_trip "{a}".toList []).1

/-- C4. With `m` arguments and `n > m`, a template of `n` placeholders `{}`
renders as the texts of the `m` arguments in order followed by `n - m` copies
of `<INVALID>`; and closing a placeholder when the counter equals the number of
arguments appends exactly `<INVALID>`, leaves the counter as it is and returns
to the not-escaping state. -/
theorem format_out_of_range (args : List format_args) (n : Nat) (h : args.length < n) :
    format ⟨(List.replicate n "{}".toList).flatten, args⟩ =
      (args.map (fun a => a.f ())).flatten ++
        (List.replicate (n - args.length) "<INVALID>".toList).flatten ∧
    ∀ (fmt : List Char) (ctx : parse_context) (result : List Char),
      ctx.current_idx = args.length →
      proc_on_left_bracket ⟨fmt, args⟩ ctx '}' result =
        (⟨ctx.current_idx, false, ctx.right_bracket⟩, result ++ "<INVALID>".toList) := by
  constructor
  · have hsplit : List.replicate n "{}".toList =
        List.replicate args.length "{}".toList ++
          List.replicate (n - args.length) "{}".toList := by
      rw [← List.replicate_add]
      congr 1
      omega
    simp only [format, run]
    rw [hsplit, List.flatten_append, format_loop_append,
      format_loop_valid_run _ args.length 0 [] (by simp)]
    simp only
    rw [format_loop_invalid_run _ (n - args.length) _ _ (by simp)]
    simp
  · intro fmt ctx result hidx
    have hge : ctx.current_idx ≥ args.length := by omega
    simp [proc_on_left_bracket, hge, INVALID]

/-- C4, at the template `{}` with no argument: the result is the sentinel. -/
theorem format_out_of_range_witness :
    format ⟨"{}".toList, []⟩ = "<INVALID>".toList :=
  (format_out_of_range [] 1 (by decide)).1

/-- C8. A template that contains neither `{` nor `}` is returned unchanged,
for every argument list. -/
theorem format_brace_free (t : List Char) (args : List format_args)
    (h1 : '{' ∉ t) (h2 : '}' ∉ t) : format ⟨t, args⟩ = t := by
  simp only [format, run]
  have h := format_loop_literal ⟨t, args⟩ t 0 [] h1 h2
  have h' : format_loop ⟨t, args⟩ t {} [] = (⟨0, false, false⟩, [] ++ t) := h
  rw [h']
  rfl

/-- C8, at the template `plain text` with one argument. -/
theorem format_brace_free_witness :
    format ⟨"plain text".toList, [format_args.of_int 7]⟩ = "plain text".toList :=
  format_brace_free "plain text".toList [format_args.of_int 7] (by decide) (by decide)

end formatter

/-! ## Properties of the container renderers -/

namespace format_type_vector

/-- C9, as stated, fails: the sequence 1, 2, 3 does not render as
`vector( 1, 2, 3)`, and the empty sequence does not render as `vector()`. -/
theorem format_vector_not_trimmed :
    format format_type_int.format [1, 2, 3] ≠ "vector( 1, 2, 3)".toList ∧
      format format_type_int.format [] ≠ "vector()".toList := by
  decide

/-- C9, amended. The empty sequence renders as `vector( )`; a non-empty one as
`vector( `, the rendered elements joined by `, `, and ` )`: one space stands
before the closing parenthesis, and no comma. -/
theorem format_vector_eq {V : Type} (fmtV : V → List Char) (v : List V) :
    format fmtV v =
      if v.isEmpty then "vector( )".toList
      else "vector( ".toList ++ List.intercalate ", ".toList (v.map fmtV) ++ " )".toList := by
  cases v with
  | nil => rfl
  | cons x xs =>
    have hfold := foldl_append_eq_flatten (fun a => fmtV a ++ ", ".toList) (x :: xs)
      ([] ++ "vector( ".toList)
    have hsep := flatten_sep_eq_intercalate ", ".toList (fmtV x) (xs.map fmtV)
    simp only [List.map_cons, List.map_map] at hsep
    have hfold' : List.foldl (fun result value => (result ++ fmtV value) ++ ", ".toList)
        ([] ++ "vector( ".toList) (x :: xs) =
        ("vector( ".toList ++ List.intercalate ", ".toList (fmtV x :: xs.map fmtV)) ++
          [',', ' '] := by
      have h2 : (fun (result : List Char) value => (result ++ fmtV value) ++ ", ".toList) =
          (fun result a => result ++ (fmtV a ++ ", ".toList)) := by
        funext r a
        simp
      rw [h2, hfold]
      simp only [List.map_cons, List.nil_append]
      have h3 : List.map (fun a => fmtV a ++ ", ".toList) xs =
          List.map ((fun t => t ++ ", ".toList) ∘ fmtV) xs := rfl
      rw [h3, hsep]
      simp
    simp only [format, hfold', List.length_cons, Nat.zero_lt_succ, if_true,
      eraseIdx_before_last, List.isEmpty_cons, Bool.false_eq_true, if_false, List.map_cons]
    simp

/-- C9, amended, at the sequence 1, 2, 3. -/
theorem format_vector_eq_witness :
    format format_type_int.format [1, 2, 3] = "vector( 1, 2, 3 )".toList :=
  format_vector_eq format_type_int.format [1, 2, 3]

end format_type_vector

namespace format_type_map

/-- C10. A non-empty mapping, its pairs `(k1, v1), ..., (kn, vn)` taken in
iteration (ascending key) order, renders as `map(`, then ` {ki, vi}` for each
pair in that order with a comma between consecutive pairs and none after the
last, then ` )`. -/
theorem format_map_nonempty {K V : Type} (fmtK : K → List Char) (fmtV : V → List Char)
    (m : List (K × V)) (h : m ≠ []) :
    format fmtK fmtV m =
      "map(".toList ++
        List.intercalate ",".toList
          (m.map (fun p => " \x7b".toList ++ fmtK p.1 ++ ", ".toList ++ fmtV p.2 ++ "\x7d".toList)) ++
        " )".toList := by
  cases m with
  | nil => exact absurd rfl h
  | cons x xs =>
    have hfold := foldl_append_eq_flatten
      (fun (p : K × V) =>
        (" \x7b".toList ++ fmtK p.1 ++ ", ".toList ++ fmtV p.2 ++ "\x7d".toList) ++ ",".toList)
      (x :: xs) ([] ++ "map(".toList)
    have hsep := flatten_sep_eq_intercalate ",".toList
      (" \x7b".toList ++ fmtK x.1 ++ ", ".toList ++ fmtV x.2 ++ "\x7d".toList)
      (xs.map (fun p => " \x7b".toList ++ fmtK p.1 ++ ", ".toList ++ fmtV p.2 ++ "\x7d".toList))
    simp only [List.map_cons, List.map_map] at hsep
    have hfold' : List.foldl
        (fun result (p : K × V) =>
          ((((result ++ " \x7b".toList) ++ fmtK p.1) ++ ", ".toList) ++ fmtV p.2) ++ "\x7d,".toList)
        ([] ++ "map(".toList) (x :: xs) =
        ("map(".toList ++ List.intercalate ",".toList
          ((x :: xs).map
            (fun p => " \x7b".toList ++ fmtK p.1 ++ ", ".toList ++ fmtV p.2 ++ "\x7d".toList))) ++
          [','] := by
      have h2 : (fun (result : List Char) (p : K × V) =>
          ((((result ++ " \x7b".toList) ++ fmtK p.1) ++ ", ".toList) ++ fmtV p.2) ++
            "\x7d,".toList) =
          (fun result p => result ++
            ((" \x7b".toList ++ fmtK p.1 ++ ", ".toList ++ fmtV p.2 ++ "\x7d".toList) ++
              ",".toList)) := by
        funext r a
        simp
      rw [h2, hfold]
      simp only [List.map_cons, List.nil_append]
      have h3 : List.map (fun (p : K × V) =>
          (" \x7b".toList ++ fmtK p.1 ++ ", ".toList ++ fmtV p.2 ++ "\x7d".toList) ++ ",".toList) xs =
          List.map ((fun t => t ++ ",".toList) ∘
            (fun (p : K × V) =>
              " \x7b".toList ++ fmtK p.1 ++ ", ".toList ++ fmtV p.2 ++ "\x7d".toList)) xs := rfl
      rw [h3, hsep]
      simp
    simp only [format, hfold', List.length_cons, Nat.zero_lt_succ, if_true, eraseIdx_last]

/-- C10, at the mapping a ↦ 1, b ↦ 2. -/
theorem format_map_nonempty_witness :
    format format_type_string.format format_type_int.format
        [("a".toList, 1), ("b".toList, 2)] =
      "map( {a, 1}, {b, 2} )".toList :=
  format_map_nonempty format_type_string.format format_type_int.format
    [("a".toList, 1), ("b".toList, 2)] (List.cons_ne_nil _ _)

end format_type_map

/-! ## Further facts about `formatter` -/

namespace formatter

/-- The scan reads the arguments of the formatter only, never its template. -/
theorem format_loop_fmt_irrel (f1 f2 : List Char) (args : List format_args) :
    ∀ (t : List Char) (ctx : parse_context) (result : List Char),
      format_loop ⟨f1, args⟩ t ctx result = format_loop ⟨f2, args⟩ t ctx result := by
  intro t
  induction t with
  | nil => intro ctx result; rfl
  | cons c t ih =>
    intro ctx result
    have hp : parse ⟨f1, args⟩ ctx c result = parse ⟨f2, args⟩ ctx c result := rfl
    simp only [format_loop, hp]
    exact ih _ _

/-- One more character after a text: `parse` applied to the state the text
leaves. -/
theorem format_loop_snoc (self : formatter) (t : List Char) (c : Char)
    (ctx : parse_context) (result : List Char) :
    format_loop self (t ++ [c]) ctx result =
      parse self (format_loop self t ctx result).1 c (format_loop self t ctx result).2 := by
  rw [format_loop_append]
  rfl

theorem parse_idx_le (self : formatter) (ctx : parse_context) (c : Char)
    (result : List Char) (h : ctx.current_idx ≤ self.args.length) :
    (parse self ctx c result).1.current_idx ≤ self.args.length := by
  unfold parse proc_on_left_bracket proc_on_right_bracket
  split_ifs <;> first | exact h | (simp only; omega)

theorem format_loop_idx_le (self : formatter) :
    ∀ (t : List Char) (ctx : parse_context) (result : List Char),
      ctx.current_idx ≤ self.args.length →
      (format_loop self t ctx result).1.current_idx ≤ self.args.length := by
  intro t
  induction t with
  | nil => intro ctx result h; exact h
  | cons c t ih =>
    intro ctx result h
    simp only [format_loop]
    exact ih _ _ (parse_idx_le self ctx c result h)

/-- In the pending-left-brace state a character other than the braces changes
nothing. -/
theorem parse_pending_left_skip (self : formatter) (ctx : parse_context) (c : Char)
    (result : List Char) (hl : ctx.left_bracket = true) (hc1 : c ≠ '{') (hc2 : c ≠ '}') :
    parse self ctx c result = (ctx, result) := by
  simp [parse, proc_on_left_bracket, hl, hc1, hc2]

/-- In the pending-right-brace state a character other than `}` changes
nothing. -/
theorem parse_pending_right_skip (self : formatter) (ctx : parse_context) (c : Char)
    (result : List Char) (hl : ctx.left_bracket = false) (hr : ctx.right_bracket = true)
    (hc : c ≠ '}') :
    parse self ctx c result = (ctx, result) := by
  simp [parse, proc_on_right_bracket, hl, hr, hc]

/-- In the pending-right-brace state a text without `}` is dropped whole. -/
theorem format_loop_pending_right (self : formatter) :
    ∀ (l : List Char) (idx : Nat) (result : List Char), '}' ∉ l →
      format_loop self l ⟨idx, false, true⟩ result = (⟨idx, false, true⟩, result) := by
  intro l
  induction l with
  | nil => intro idx result _; rfl
  | cons c l ih =>
    intro idx result h
    simp only [List.mem_cons, not_or] at h
    have hc : c ≠ '}' := fun e => h.1 e.symm
    simp only [format_loop, parse_pending_right_skip self ⟨idx, false, true⟩ c result rfl rfl hc]
    exact ih idx result h.2

end formatter

/-! ## Further properties of the template engine and of the map renderer -/

namespace format_type_map

/-- C11, as stated, fails: the empty mapping does not render as `map()`. -/
theorem format_map_empty_not_tight :
    format format_type_string.format format_type_int.format [] ≠ "map()".toList := by
  decide

/-- C11, amended. The empty mapping renders as exactly `map( )`: one space
stands between the parentheses. -/
theorem format_map_empty {K V : Type} (fmtK : K → List Char) (fmtV : V → List Char) :
    format fmtK fmtV [] = "map( )".toList := by
  rfl

end format_type_map

namespace formatter

/-- C12. When the engine is in the not-escaping state after the template `t`
(neither flag of the context is set), rendering `t` followed by `{` and
rendering `t` followed by `}` both return what rendering `t` returns: the
unmatched trailing brace is dropped. -/
theorem format_trailing_brace_dropped (t : List Char) (args : List format_args)
    (hl : (run ⟨t, args⟩).1.left_bracket = false)
    (hr : (run ⟨t, args⟩).1.right_bracket = false) :
    format ⟨t ++ ['{'], args⟩ = format ⟨t, args⟩ ∧
      format ⟨t ++ ['}'], args⟩ = format ⟨t, args⟩ := by
  simp only [run] at hl hr
  have key : ∀ c : Char, c = '{' ∨ c = '}' →
      format ⟨t ++ [c], args⟩ = format ⟨t, args⟩ := by
    intro c hc
    simp only [format, run]
    rw [format_loop_snoc, format_loop_fmt_irrel (t ++ [c]) t args t]
    rcases hc with hc | hc <;> simp [parse, hl, hr, hc]
  exact ⟨key '{' (Or.inl rfl), key '}' (Or.inr rfl)⟩

/-- C12, at the brace-free template `ab`. -/
theorem format_trailing_brace_dropped_witness :
    format ⟨"ab\x7b".toList, []⟩ = "ab".toList ∧ format ⟨"ab\x7d".toList, []⟩ = "ab".toList :=
  format_trailing_brace_dropped "ab".toList [] (by decide) (by decide)

/-- C14. `format` is a total function, and after every prefix `t` of the
template the positional counter is at most the number of arguments, so that
the guarded access `args[current_idx]` is within bounds. -/
theorem format_counter_in_bounds (t rest : List Char) (args : List format_args) :
    (format_loop ⟨t ++ rest, args⟩ t {} []).1.current_idx ≤ args.length ∧
      (run ⟨t ++ rest, args⟩).1.current_idx ≤ args.length ∧
      ∃ out, format ⟨t ++ rest, args⟩ = out :=
  ⟨format_loop_idx_le ⟨t ++ rest, args⟩ t {} [] (Nat.zero_le _),
    format_loop_idx_le ⟨t ++ rest, args⟩ (t ++ rest) {} [] (Nat.zero_le _), _, rfl⟩

/-- C15, as stated, fails: `{a}` with one argument does not render like `}`
alone, and its result is not empty. -/
theorem format_inline_text_not_dropped :
    format ⟨"{a}".toList, [format_args.of_int 7]⟩ ≠
        format ⟨"\x7d".toList, [format_args.of_int 7]⟩ ∧
      format ⟨"{a}".toList, [format_args.of_int 7]⟩ ≠ [] := by
  decide

/-- C15, amended. A character `c` other than the braces, processed in the
pending-left-brace state, emits nothing and leaves the context as it is (the
engine stays in pending-left-brace); hence rendering `{`, `c`, `rest` gives
what rendering `{`, `rest` gives with the same arguments. -/
theorem format_pending_left_other (c : Char) (hc1 : c ≠ '{') (hc2 : c ≠ '}') :
    (∀ (self : formatter) (ctx : parse_context) (result : List Char),
      proc_on_left_bracket self ctx c result = (ctx, result)) ∧
    ∀ (rest : List Char) (args : List format_args),
      format ⟨'{' :: c :: rest, args⟩ = format ⟨'{' :: rest, args⟩ := by
  constructor
  · intro self ctx result
    simp [proc_on_left_bracket, hc1, hc2]
  · intro rest args
    simp only [format, run, format_loop]
    have h1 : parse ⟨'{' :: c :: rest, args⟩ {} '{' [] = (⟨0, true, false⟩, []) := rfl
    have h2 : parse ⟨'{' :: rest, args⟩ {} '{' [] = (⟨0, true, false⟩, []) := rfl
    rw [h1, h2]
    simp only
    rw [parse_pending_left_skip _ ⟨0, true, false⟩ c [] rfl hc1 hc2]
    simp only
    rw [format_loop_fmt_irrel ('{' :: c :: rest) ('{' :: rest) args]

/-- C15, amended, at `{a}` with the argument 7: the placeholder is closed by
`}` and takes the argument. -/
theorem format_pending_left_other_witness :
    format ⟨"{a}".toList, [format_args.of_int 7]⟩ = "7".toList :=
  ((format_pending_left_other 'a' (by decide) (by decide)).2 "\x7d".toList
    [format_args.of_int 7]).trans (by decide)

/-- C16, as stated, fails: the result of rendering `}ab` does not end with `b`. -/
theorem format_after_lone_right_dropped :
    ¬ ("b".toList <:+ format ⟨"\x7dab".toList, []⟩) := by
  decide

/-- C16, amended. A character `c` other than `}`, processed in the
pending-right-brace state, emits nothing and leaves the context as it is (the
engine stays in pending-right-brace); hence rendering `}`, `c`, `rest` gives
what rendering `}`, `rest` gives, which is the empty text when `rest` holds no
`}`. -/
theorem format_pending_right_other (c : Char) (hc : c ≠ '}') :
    (∀ (self : formatter) (ctx : parse_context) (result : List Char),
      proc_on_right_bracket self ctx c result = (ctx, result)) ∧
    (∀ (rest : List Char) (args : List format_args),
      format ⟨'}' :: c :: rest, args⟩ = format ⟨'}' :: rest, args⟩) ∧
    ∀ (rest : List Char) (args : List format_args), '}' ∉ rest →
      format ⟨'}' :: c :: rest, args⟩ = [] := by
  have hstep : ∀ (rest : List Char) (args : List format_args),
      format ⟨'}' :: c :: rest, args⟩ = format ⟨'}' :: rest, args⟩ := by
    intro rest args
    simp only [format, run, format_loop]
    have h1 : parse ⟨'}' :: c :: rest, args⟩ {} '}' [] = (⟨0, false, true⟩, []) := rfl
    have h2 : parse ⟨'}' :: rest, args⟩ {} '}' [] = (⟨0, false, true⟩, []) := rfl
    rw [h1, h2]
    simp only
    rw [parse_pending_right_skip _ ⟨0, false, true⟩ c [] rfl rfl hc]
    simp only
    rw [format_loop_fmt_irrel ('}' :: c :: rest) ('}' :: rest) args]
  refine ⟨?_, hstep, ?_⟩
  · intro self ctx result
    simp [proc_on_right_bracket, hc]
  · intro rest args hrest
    rw [hstep rest args]
    simp only [format, run, format_loop]
    have h2 : parse ⟨'}' :: rest, args⟩ {} '}' [] = (⟨0, false, true⟩, []) := rfl
    rw [h2]
    simp only
    rw [format_loop_pending_right _ rest 0 [] hrest]

/-- C16, amended, at `}ab` with no argument: nothing is rendered. -/
theorem format_pending_right_other_witness :
    format ⟨"\x7dab".toList, []⟩ = [] :=
  (format_pending_right_other 'a' (by decide)).2.2 "b".toList [] (by decide)

end formatter

/-! ## Further facts about `format_placeholder` -/

namespace format_placeholder

open std

/-- The `for` loop of `parse_flags` consumes the maximal run of flag characters
standing at `pos` and adds their masks to `flags`. -/
theorem parse_flags_loop_eq (spec : List Char) :
    ∀ (fuel flags pos : Nat), pos ≤ spec.length → spec.length - pos < fuel →
      parse_flags_loop spec fuel flags pos =
        some (flags ||| flag_bits ((spec.drop pos).takeWhile is_flag_char),
          pos + ((spec.drop pos).takeWhile is_flag_char).length) := by
  intro fuel
  induction fuel with
  | zero => intro _ pos _ h; omega
  | succ fuel ih =>
    intro flags pos hle hfuel
    simp only [parse_flags_loop]
    by_cases hp : pos = spec.length
    · rw [if_pos hp]
      subst hp
      simp [flag_bits]
    · have hlt : pos < spec.length := by omega
      have hc : string_at spec pos = some spec[pos] := by
        simp [string_at, List.getElem?_eq_getElem hlt]
      have hrec : ∀ fl, parse_flags_loop spec fuel fl (pos + 1) =
          some (fl ||| flag_bits ((spec.drop (pos + 1)).takeWhile is_flag_char),
            pos + 1 + ((spec.drop (pos + 1)).takeWhile is_flag_char).length) :=
        fun fl => ih fl (pos + 1) (by omega) (by omega)
      rw [if_neg hp]
      simp only [hc, hrec, List.drop_eq_getElem_cons hlt]
      generalize spec[pos] = c
      generalize List.drop (pos + 1) spec = tl
      split_ifs with h1 h2 h3 h4 h5
      · subst h1
        simp [List.takeWhile, is_flag_char, flag_bits, flag_bit, Nat.lor_assoc, Nat.add_assoc,
          Nat.add_comm 1]
      · subst h2
        simp [List.takeWhile, is_flag_char, flag_bits, flag_bit, Nat.lor_assoc, Nat.add_assoc,
          Nat.add_comm 1]
      · subst h3
        simp [List.takeWhile, is_flag_char, flag_bits, flag_bit, Nat.lor_assoc, Nat.add_assoc,
          Nat.add_comm 1]
      · subst h4
        simp [List.takeWhile, is_flag_char, flag_bits, flag_bit, Nat.lor_assoc, Nat.add_assoc,
          Nat.add_comm 1]
      · subst h5
        simp [List.takeWhile, is_flag_char, flag_bits, flag_bit, Nat.lor_assoc, Nat.add_assoc,
          Nat.add_comm 1]
      · have hb : is_flag_char c = false := by
          simp [is_flag_char, h1, h2, h3, h4, h5]
        simp [List.takeWhile, hb, flag_bits]

theorem parse_flags_eq (self : format_placeholder) (spec : List Char) (start : Nat)
    (hs : start ≤ spec.length) :
    parse_flags self spec start =
      some ({ self with
                flags := self.flags ||| flag_bits ((spec.drop start).takeWhile is_flag_char) },
        start + ((spec.drop start).takeWhile is_flag_char).length) := by
  simp only [parse_flags,
    parse_flags_loop_eq spec (spec.length + 1) self.flags start hs (by omega)]

theorem parse_num_field_total (field : num_field) (spec : List Char) (start end_ : Nat)
    (hse : start ≤ end_) (hend : end_ ≤ spec.length) :
    ∃ f, parse_num_field field spec start end_ = some f := by
  obtain ⟨s, hs, h1, h2⟩ :=
    skip_leading_zero_some spec end_ hend (spec.length + 1) start hse (by omega)
  simp only [parse_num_field, hs]
  by_cases he : s = end_
  · rw [if_pos he]
    exact ⟨_, rfl⟩
  · obtain ⟨c, hc⟩ := string_at_of_lt spec s (by omega)
    rw [if_neg he]
    simp only [hc]
    split_ifs
    · exact ⟨_, rfl⟩
    · cases (substr spec s (end_ - s)).bind stoi with
      | none => exact ⟨_, rfl⟩
      | some n =>
        simp only
        split_ifs <;> exact ⟨_, rfl⟩

/-! ### What each stage leaves untouched -/

theorem parse_param_frame (self self' : format_placeholder) (spec : List Char)
    (start pos' : Nat) (h : parse_param self spec start = some (self', pos')) :
    self'.flags = self.flags ∧ self'.type = self.type ∧ self'.width = self.width ∧
      self'.precision = self.precision := by
  unfold parse_param at h
  cases hf : find spec '$' start with
  | none =>
    simp only [hf, Option.some.injEq, Prod.mk.injEq] at h
    obtain ⟨rfl, _⟩ := h
    exact ⟨rfl, rfl, rfl, rfl⟩
  | some pos =>
    simp only [hf] at h
    cases hn : (substr spec start pos).bind stoi with
    | none =>
      simp only [hn, Option.some.injEq, Prod.mk.injEq] at h
      obtain ⟨rfl, _⟩ := h
      exact ⟨rfl, rfl, rfl, rfl⟩
    | some n =>
      simp only [hn, Option.some.injEq, Prod.mk.injEq] at h
      obtain ⟨rfl, _⟩ := h
      exact ⟨rfl, rfl, rfl, rfl⟩

theorem parse_flags_frame (self self' : format_placeholder) (spec : List Char)
    (start pos' : Nat) (h : parse_flags self spec start = some (self', pos')) :
    self'.param = self.param ∧ self'.type = self.type ∧ self'.width = self.width ∧
      self'.precision = self.precision := by
  unfold parse_flags at h
  cases hl : parse_flags_loop spec (spec.length + 1) self.flags start with
  | none => simp [hl] at h
  | some r =>
    obtain ⟨fl, q⟩ := r
    simp only [hl, Option.some.injEq, Prod.mk.injEq] at h
    obtain ⟨rfl, _⟩ := h
    exact ⟨rfl, rfl, rfl, rfl⟩

theorem parse_width_frame (self self' : format_placeholder) (spec : List Char)
    (start pos' : Nat) (h : parse_width self spec start = some (self', pos')) :
    self'.param = self.param ∧ self'.flags = self.flags ∧ self'.type = self.type ∧
      self'.precision = self.precision := by
  unfold parse_width at h
  cases hn : parse_num_field self.width spec start (num_run_end spec start) with
  | none => simp [hn] at h
  | some w =>
    simp only [hn, Option.some.injEq, Prod.mk.injEq] at h
    obtain ⟨rfl, _⟩ := h
    exact ⟨rfl, rfl, rfl, rfl⟩

theorem parse_precision_frame (self self' : format_placeholder) (spec : List Char)
    (start pos' : Nat) (h : parse_precision self spec start = some (self', pos')) :
    self'.param = self.param ∧ self'.flags = self.flags ∧ self'.type = self.type ∧
      self'.width = self.width ∧ (spec.head? ≠ some '.' → self'.precision = self.precision) := by
  unfold parse_precision front at h
  cases hf : spec.head? with
  | none => simp [hf] at h
  | some c =>
    simp only [hf] at h
    by_cases hc : c = '.'
    · rw [if_neg (not_not.mpr hc)] at h
      cases hn : parse_num_field self.precision spec (start + 1)
          (num_run_end spec (start + 1)) with
      | none => simp [hn] at h
      | some w =>
        simp only [hn, Option.some.injEq, Prod.mk.injEq] at h
        obtain ⟨rfl, _⟩ := h
        exact ⟨rfl, rfl, rfl, rfl, fun hne => absurd (by rw [hc]) hne⟩
    · rw [if_pos hc] at h
      simp only [Option.some.injEq, Prod.mk.injEq] at h
      obtain ⟨rfl, _⟩ := h
      exact ⟨rfl, rfl, rfl, rfl, fun _ => rfl⟩

theorem parse_type_frame (self self' : format_placeholder) (spec : List Char)
    (start pos' : Nat) (h : parse_type self spec start = some (self', pos')) :
    self'.param = self.param ∧ self'.flags = self.flags ∧ self'.width = self.width ∧
      self'.precision = self.precision ∧
      (self'.type = self.type ∨ type_of_first spec self'.type) := by
  unfold parse_type front at h
  cases hf : spec.head? with
  | none => simp [hf] at h
  | some c =>
    simp only [hf] at h
    split_ifs at h with h1 h2 h3 h4 h5 <;>
      simp only [Option.some.injEq, Prod.mk.injEq] at h <;>
      obtain ⟨rfl, _⟩ := h
    · exact ⟨rfl, rfl, rfl, rfl, Or.inr ⟨c, hf, Or.inl ⟨h1, rfl⟩⟩⟩
    · exact ⟨rfl, rfl, rfl, rfl, Or.inr ⟨c, hf, Or.inr (Or.inl ⟨h2, rfl⟩)⟩⟩
    · exact ⟨rfl, rfl, rfl, rfl, Or.inr ⟨c, hf, Or.inr (Or.inr (Or.inl ⟨h3, rfl⟩))⟩⟩
    · exact ⟨rfl, rfl, rfl, rfl,
        Or.inr ⟨c, hf, Or.inr (Or.inr (Or.inr (Or.inl ⟨h4, rfl⟩)))⟩⟩
    · exact ⟨rfl, rfl, rfl, rfl,
        Or.inr ⟨c, hf, Or.inr (Or.inr (Or.inr (Or.inr ⟨h5, rfl⟩)))⟩⟩
    · exact ⟨rfl, rfl, rfl, rfl, Or.inl rfl⟩

/-- A property that every stage of the remaining table keeps holds for the
object `parse` leaves. -/
theorem parse_loop_invariant (spec : List Char) (P : format_placeholder → Prop) :
    ∀ (fs : List parse_func) (self : format_placeholder) (pos : Nat) (p : format_placeholder),
      (∀ f ∈ fs, ∀ (s s' : format_placeholder) (q q' : Nat),
        f s spec q = some (s', q') → P s → P s') →
      P self → parse_loop spec fs self pos = some p → P p := by
  intro fs
  induction fs with
  | nil =>
    intro self pos p _ hP h
    simp only [parse_loop, Option.some.injEq] at h
    exact h ▸ hP
  | cons f fs ih =>
    intro self pos p hpres hP h
    simp only [parse_loop] at h
    by_cases hp : pos ≥ spec.length
    · rw [if_pos hp] at h
      simp only [Option.some.injEq] at h
      exact h ▸ hP
    · rw [if_neg hp] at h
      cases hf : f self spec pos with
      | none => simp [hf] at h
      | some r =>
        obtain ⟨s', q'⟩ := r
        simp only [hf] at h
        exact ih s' q' p (fun g hg => hpres g (List.mem_cons_of_mem _ hg))
          (hpres f (List.mem_cons_self _ _) self s' pos q' hf hP) h

/-! ### Offsets returned by the stages -/

theorem find_bounds (s : List Char) (c : Char) (start pos : Nat)
    (h : find s c start = some pos) : start ≤ pos ∧ pos < s.length := by
  have hb := find_idx_bounds _ _ _ _ h
  simp only [List.length_drop] at hb
  omega

theorem substr_some (s : List Char) (pos count : Nat) (h : pos ≤ s.length) :
    substr s pos count = some ((s.drop pos).take count) := by
  simp [substr, Nat.not_lt.mpr h]

theorem parse_param_bounds (self : format_placeholder) (spec : List Char) (start : Nat)
    (hs : start < spec.length) :
    ∃ self' pos', parse_param self spec start = some (self', pos') ∧
      start ≤ pos' ∧ pos' ≤ spec.length := by
  unfold parse_param
  cases hf : find spec '$' start with
  | none => exact ⟨_, _, rfl, le_refl _, le_of_lt hs⟩
  | some pos =>
    have hb := find_bounds _ _ _ _ hf
    simp only
    cases (substr spec start pos).bind stoi with
    | none => exact ⟨_, _, rfl, by omega, by omega⟩
    | some n => exact ⟨_, _, rfl, by omega, by omega⟩

theorem parse_flags_bounds (self : format_placeholder) (spec : List Char) (start : Nat)
    (hs : start < spec.length) :
    ∃ self' pos', parse_flags self spec start = some (self', pos') ∧
      start ≤ pos' ∧ pos' ≤ spec.length := by
  have hlen : ((spec.drop start).takeWhile is_flag_char).length ≤ spec.length - start := by
    have h := (List.takeWhile_sublist is_flag_char (l := spec.drop start)).length_le
    simpa using h
  exact ⟨_, _, parse_flags_eq self spec start (le_of_lt hs), by omega, by omega⟩

theorem parse_width_bounds (self : format_placeholder) (spec : List Char) (start : Nat)
    (hs : start < spec.length) :
    ∃ self' pos', parse_width self spec start = some (self', pos') ∧
      start ≤ pos' ∧ pos' ≤ spec.length := by
  obtain ⟨h1, h2⟩ := num_run_end_bounds spec start (le_of_lt hs)
  obtain ⟨f, hf⟩ := parse_num_field_total self.width spec start _ h1 h2
  simp only [parse_width, hf]
  exact ⟨_, _, rfl, h1, h2⟩

theorem parse_precision_bounds (self : format_placeholder) (spec : List Char) (start : Nat)
    (hs : start < spec.length) :
    ∃ self' pos', parse_precision self spec start = some (self', pos') ∧
      start ≤ pos' ∧ pos' ≤ spec.length := by
  cases spec with
  | nil => simp at hs
  | cons c cs =>
    simp only [parse_precision, front, List.head?_cons]
    by_cases hc : c = '.'
    · obtain ⟨h1, h2⟩ := num_run_end_bounds (c :: cs) (start + 1) (by omega)
      obtain ⟨f, hf⟩ := parse_num_field_total self.precision (c :: cs) (start + 1) _ h1 h2
      rw [if_neg (not_not.mpr hc)]
      simp only [hf]
      exact ⟨_, _, rfl, by omega, h2⟩
    · rw [if_pos hc]
      exact ⟨_, _, rfl, le_refl _, le_of_lt hs⟩

theorem parse_type_bounds (self : format_placeholder) (spec : List Char) (start : Nat)
    (hs : start < spec.length) :
    ∃ self' pos', parse_type self spec start = some (self', pos') ∧
      start ≤ pos' ∧ pos' ≤ spec.length := by
  cases spec with
  | nil => simp at hs
  | cons c cs =>
    simp only [parse_type, front, List.head?_cons]
    split_ifs <;> exact ⟨_, _, rfl, by omega, by omega⟩

/-! ### The search for `$` and the numeral before it -/

theorem find_idx_none (p : Char → Bool) :
    ∀ (cs : List Char) (i : Nat), (∀ c ∈ cs, p c = false) → find_idx p cs i = none := by
  intro cs
  induction cs with
  | nil => intro i _; rfl
  | cons c cs ih =>
    intro i h
    have hc : p c = false := h c (List.mem_cons_self _ _)
    simp only [find_idx, hc, Bool.false_eq_true, if_false]
    exact ih (i + 1) (fun x hx => h x (List.mem_cons_of_mem _ hx))

theorem find_idx_first (p : Char → Bool) (x : Char) (rest : List Char) (hx : p x = true) :
    ∀ (pre : List Char) (i : Nat), (∀ c ∈ pre, p c = false) →
      find_idx p (pre ++ x :: rest) i = some (i + pre.length) := by
  intro pre
  induction pre with
  | nil => intro i _; simp [find_idx, hx]
  | cons c pre ih =>
    intro i h
    have hc : p c = false := h c (List.mem_cons_self _ _)
    rw [List.cons_append, find_idx, hc]
    simp only [Bool.false_eq_true, if_false]
    rw [ih (i + 1) (fun y hy => h y (List.mem_cons_of_mem _ hy))]
    simp only [List.length_cons]
    congr 1
    omega

theorem find_dollar_none (spec : List Char) (h : '$' ∉ spec) : find spec '$' 0 = none := by
  simp only [find, List.drop_zero]
  apply find_idx_none
  intro c hc
  simp only [beq_eq_false_iff_ne, ne_eq]
  intro e
  exact h (e ▸ hc)

theorem find_dollar_first (pre rest : List Char) (h : '$' ∉ pre) :
    find (pre ++ '$' :: rest) '$' 0 = some pre.length := by
  simp only [find, List.drop_zero]
  rw [find_idx_first _ '$' rest (by simp) pre 0]
  · simp
  · intro c hc
    simp only [beq_eq_false_iff_ne, ne_eq]
    intro e
    exact h (e ▸ hc)

theorem isdigit_not_special (c : Char) (h : isdigit c = true) :
    isspace c = false ∧ c ≠ '-' ∧ c ≠ '+' ∧ c ≠ '$' := by
  refine ⟨?_, ?_, ?_, ?_⟩
  · cases hsp : isspace c with
    | false => rfl
    | true =>
      exfalso
      simp only [isspace, Bool.or_eq_true, beq_iff_eq] at hsp
      rcases hsp with ((((rfl | rfl) | rfl) | rfl) | rfl) | rfl <;> exact absurd h (by decide)
  · rintro rfl
    exact absurd h (by decide)
  · rintro rfl
    exact absurd h (by decide)
  · rintro rfl
    exact absurd h (by decide)

/-- On a non-empty run of digits whose value fits an `int`, `stoi` returns that
value. -/
theorem stoi_digits (ds : List Char) (hne : ds ≠ []) (hd : ∀ c ∈ ds, isdigit c = true)
    (hmax : (digits_value ds : Int) ≤ INT_MAX) : stoi ds = some (digits_value ds : Int) := by
  cases ds with
  | nil => exact absurd rfl hne
  | cons d tl =>
    obtain ⟨hsp, hm, hp, _⟩ := isdigit_not_special d (hd d (List.mem_cons_self _ _))
    have h1 : List.dropWhile isspace (d :: tl) = d :: tl :=
      List.dropWhile_cons_of_neg (by simp [hsp])
    have h2 : List.takeWhile isdigit (d :: tl) = d :: tl := List.takeWhile_eq_self_iff.mpr hd
    have hmin : INT_MIN ≤ (digits_value (d :: tl) : Int) := by
      have : (0 : Int) ≤ (digits_value (d :: tl) : Int) := Int.natCast_nonneg _
      unfold INT_MIN
      omega
    have e1 : (some d == some '-') = false := by simp [hm]
    have e2 : (some d == some '+') = false := by simp [hp]
    simp only [stoi, h1, List.head?_cons, e1, e2, Bool.or_self, Bool.false_eq_true, if_false,
      h2, List.isEmpty_cons, hmin, hmax, and_self, if_true]

/-! ### The loop of `parse`, one stage at a time -/

theorem parse_loop_break (spec : List Char) (f : parse_func) (fs : List parse_func)
    (self : format_placeholder) (pos : Nat) (h : spec.length ≤ pos) :
    parse_loop spec (f :: fs) self pos = some self := by
  simp only [parse_loop]
  rw [if_pos h]

theorem parse_loop_cons (spec : List Char) (f : parse_func) (fs : List parse_func)
    (self self' : format_placeholder) (pos pos' : Nat) (h : pos < spec.length)
    (hf : f self spec pos = some (self', pos')) :
    parse_loop spec (f :: fs) self pos = parse_loop spec fs self' pos' := by
  simp only [parse_loop]
  rw [if_neg (by omega)]
  simp only [hf]

theorem after_param_keep_param (spec : List Char) (x : Int) :
    ∀ f ∈ [parse_flags, parse_width, parse_precision, parse_type],
      ∀ (s s' : format_placeholder) (q q' : Nat),
        f s spec q = some (s', q') → s.param = x → s'.param = x := by
  intro f hf s s' q q' h hP
  simp only [List.mem_cons, List.mem_singleton, List.not_mem_nil, or_false] at hf
  rcases hf with rfl | rfl | rfl | rfl
  · rw [(parse_flags_frame _ _ _ _ _ h).1]; exact hP
  · rw [(parse_width_frame _ _ _ _ _ h).1]; exact hP
  · rw [(parse_precision_frame _ _ _ _ _ h).1]; exact hP
  · rw [(parse_type_frame _ _ _ _ _ h).1]; exact hP

theorem after_flags_keep_flags (spec : List Char) (x : Nat) :
    ∀ f ∈ [parse_width, parse_precision, parse_type],
      ∀ (s s' : format_placeholder) (q q' : Nat),
        f s spec q = some (s', q') → s.flags = x → s'.flags = x := by
  intro f hf s s' q q' h hP
  simp only [List.mem_cons, List.mem_singleton, List.not_mem_nil, or_false] at hf
  rcases hf with rfl | rfl | rfl
  · rw [(parse_width_frame _ _ _ _ _ h).2.1]; exact hP
  · rw [(parse_precision_frame _ _ _ _ _ h).2.1]; exact hP
  · rw [(parse_type_frame _ _ _ _ _ h).2.1]; exact hP

theorem tbl_keep_type (spec : List Char) :
    ∀ f ∈ tbl, ∀ (s s' : format_placeholder) (q q' : Nat),
      f s spec q = some (s', q') →
      (s.type = PlaceholderType.TYPE_DEFAULT ∨ type_of_first spec s.type) →
      (s'.type = PlaceholderType.TYPE_DEFAULT ∨ type_of_first spec s'.type) := by
  intro f hf s s' q q' h hP
  simp only [tbl, List.mem_cons, List.mem_singleton, List.not_mem_nil, or_false] at hf
  rcases hf with rfl | rfl | rfl | rfl | rfl
  · rw [(parse_param_frame _ _ _ _ _ h).2.1]; exact hP
  · rw [(parse_flags_frame _ _ _ _ _ h).2.1]; exact hP
  · rw [(parse_width_frame _ _ _ _ _ h).2.2.1]; exact hP
  · rw [(parse_precision_frame _ _ _ _ _ h).2.2.1]; exact hP
  · rcases (parse_type_frame _ _ _ _ _ h).2.2.2.2 with e | e
    · rw [e]; exact hP
    · exact Or.inr e

theorem tbl_keep_precision (spec : List Char) (hdot : spec.head? ≠ some '.') (x : num_field) :
    ∀ f ∈ tbl, ∀ (s s' : format_placeholder) (q q' : Nat),
      f s spec q = some (s', q') → s.precision = x → s'.precision = x := by
  intro f hf s s' q q' h hP
  simp only [tbl, List.mem_cons, List.mem_singleton, List.not_mem_nil, or_false] at hf
  rcases hf with rfl | rfl | rfl | rfl | rfl
  · rw [(parse_param_frame _ _ _ _ _ h).2.2.2]; exact hP
  · rw [(parse_flags_frame _ _ _ _ _ h).2.2.2]; exact hP
  · rw [(parse_width_frame _ _ _ _ _ h).2.2.2]; exact hP
  · rw [(parse_precision_frame _ _ _ _ _ h).2.2.2.2 hdot]; exact hP
  · rw [(parse_type_frame _ _ _ _ _ h).2.2.2.1]; exact hP

theorem parse_param_no_dollar (self : format_placeholder) (spec : List Char)
    (h : find spec '$' 0 = none) : parse_param self spec 0 = some (self, 0) := by
  simp only [parse_param, h]

theorem parse_param_dollar_fail (self : format_placeholder) (spec : List Char) (pos : Nat)
    (h : find spec '$' 0 = some pos) (hn : (substr spec 0 pos).bind stoi = none) :
    parse_param self spec 0 = some (self, pos + 1) := by
  simp only [parse_param, h, hn]

theorem parse_param_dollar_value (self : format_placeholder) (spec : List Char) (pos : Nat)
    (n : Int) (h : find spec '$' 0 = some pos) (hn : (substr spec 0 pos).bind stoi = some n) :
    parse_param self spec 0 = some ({ self with param := n }, pos + 1) := by
  simp only [parse_param, h, hn]

/-- The object `parse` starts from in the constructor, and the fact that it
returns. -/
theorem init_some (uninit_flags : Nat) (spec : List Char) :
    ∃ p, parse_loop spec tbl
      { param := -1, flags := uninit_flags, type := PlaceholderType.TYPE_DEFAULT,
        width := {}, precision := {} } 0 = some p ∧ init uninit_flags spec = some p := by
  obtain ⟨p, hp, _⟩ := parse_fields_ok
    { param := -1, flags := uninit_flags, type := PlaceholderType.TYPE_DEFAULT,
      width := {}, precision := {} } spec (fun h => by cases h) (fun h => by cases h)
  exact ⟨p, hp, hp⟩

theorem init_param_no_dollar (uninit_flags : Nat) (spec : List Char)
    (h : find spec '$' 0 = none) :
    ∃ p, init uninit_flags spec = some p ∧ p.param = -1 := by
  obtain ⟨p, hp, hinit⟩ := init_some uninit_flags spec
  refine ⟨p, hinit, ?_⟩
  unfold tbl at hp
  by_cases hlen : spec.length ≤ 0
  · rw [parse_loop_break _ _ _ _ _ hlen] at hp
    simp only [Option.some.injEq] at hp
    rw [← hp]
  · rw [parse_loop_cons _ _ _ _ _ _ _ (by omega) (parse_param_no_dollar _ spec h)] at hp
    exact parse_loop_invariant spec (fun s => s.param = -1) _ _ _ p
      (after_param_keep_param spec (-1)) rfl hp

theorem init_param_dollar (uninit_flags : Nat) (spec : List Char) (pos : Nat)
    (h : find spec '$' 0 = some pos) :
    ∃ p, init uninit_flags spec = some p ∧
      p.param = ((substr spec 0 pos).bind stoi).getD (-1) := by
  obtain ⟨p, hp, hinit⟩ := init_some uninit_flags spec
  refine ⟨p, hinit, ?_⟩
  have hb := find_bounds _ _ _ _ h
  unfold tbl at hp
  cases hn : (substr spec 0 pos).bind stoi with
  | none =>
    rw [parse_loop_cons _ _ _ _ _ _ _ (by omega) (parse_param_dollar_fail _ spec pos h hn)] at hp
    exact parse_loop_invariant spec (fun s => s.param = -1) _ _ _ p
      (after_param_keep_param spec (-1)) rfl hp
  | some n =>
    rw [parse_loop_cons _ _ _ _ _ _ _ (by omega)
      (parse_param_dollar_value _ spec pos n h hn)] at hp
    exact parse_loop_invariant spec (fun s => s.param = n) _ _ _ p
      (after_param_keep_param spec n) rfl hp

theorem init_flags_core (uninit_flags : Nat) (spec : List Char) (h : '$' ∉ spec) :
    ∃ p, init uninit_flags spec = some p ∧
      p.flags = uninit_flags ||| flag_bits (spec.takeWhile is_flag_char) := by
  obtain ⟨p, hp, hinit⟩ := init_some uninit_flags spec
  refine ⟨p, hinit, ?_⟩
  unfold tbl at hp
  by_cases hlen : spec.length ≤ 0
  · rw [parse_loop_break _ _ _ _ _ hlen] at hp
    simp only [Option.some.injEq] at hp
    have hnil : spec = [] := List.length_eq_zero.mp (by omega)
    rw [← hp, hnil]
    simp [flag_bits]
  · rw [parse_loop_cons _ _ _ _ _ _ _ (by omega)
        (parse_param_no_dollar _ spec (find_dollar_none spec h)),
      parse_loop_cons _ _ _ _ _ _ _ (by omega) (parse_flags_eq _ spec 0 (Nat.zero_le _))] at hp
    have hinv := parse_loop_invariant spec
      (fun s => s.flags = uninit_flags ||| flag_bits ((spec.drop 0).takeWhile is_flag_char))
      _ _ _ p (after_flags_keep_flags spec _) rfl hp
    simpa using hinv

end format_placeholder

/-! ## Further properties of the placeholder parser -/

namespace format_placeholder

open std

/-- C13. Parsing never raises: the constructor returns for every text; the
loop of `parse` calls no stage once the offset has reached the length of the
text; every stage of the table, called with an offset below the length,
returns (so each `at()` and `front()` it makes is in bounds) with an offset
between the one it got and the length; the leading-zero loop ends between
`start` and `end`; and `substr` at an offset up to the length does not throw.
A failed `stoi` is absorbed inside the stages, which return all the same. -/
theorem parse_never_raises :
    (∀ (uninit_flags : Nat) (spec : List Char), ∃ p, init uninit_flags spec = some p) ∧
    (∀ (spec : List Char) (f : parse_func) (fs : List parse_func)
        (self : format_placeholder) (pos : Nat),
      spec.length ≤ pos → parse_loop spec (f :: fs) self pos = some self) ∧
    (∀ f ∈ tbl, ∀ (self : format_placeholder) (spec : List Char) (start : Nat),
      start < spec.length →
      ∃ self' pos', f self spec start = some (self', pos') ∧
        start ≤ pos' ∧ pos' ≤ spec.length) ∧
    (∀ (spec : List Char) (start end_ : Nat), start ≤ end_ → end_ ≤ spec.length →
      ∃ s, skip_leading_zero spec end_ (spec.length + 1) start = some s ∧
        start ≤ s ∧ s ≤ end_) ∧
    (∀ (spec : List Char) (pos count : Nat), pos ≤ spec.length →
      ∃ t, substr spec pos count = some t) := by
  refine ⟨?_, ?_, ?_, ?_, ?_⟩
  · intro u spec
    obtain ⟨p, _, hp⟩ := init_some u spec
    exact ⟨p, hp⟩
  · intro spec f fs self pos h
    exact parse_loop_break spec f fs self pos h
  · intro f hf self spec start hs
    simp only [tbl, List.mem_cons, List.mem_singleton, List.not_mem_nil, or_false] at hf
    rcases hf with rfl | rfl | rfl | rfl | rfl
    · exact parse_param_bounds self spec start hs
    · exact parse_flags_bounds self spec start hs
    · exact parse_width_bounds self spec start hs
    · exact parse_precision_bounds self spec start hs
    · exact parse_type_bounds self spec start hs
  · intro spec start end_ h1 h2
    exact skip_leading_zero_some spec end_ h2 (spec.length + 1) start h1 (by omega)
  · intro spec pos count h
    exact ⟨_, substr_some spec pos count h⟩

/-- C17. For a text without `$` the parsed flags are the initial content of
the member `flags`, which the constructor does not set, joined with the masks
of the characters of the maximal leading run of flag characters; the flags
stage, entered at offset 0, returns the offset just after that run. -/
theorem init_flags_no_dollar (uninit_flags : Nat) (spec : List Char) (h : '$' ∉ spec) :
    (∃ p, init uninit_flags spec = some p ∧
      p.flags = uninit_flags ||| flag_bits (spec.takeWhile is_flag_char)) ∧
    ∀ self : format_placeholder,
      parse_flags self spec 0 =
        some ({ self with flags := self.flags ||| flag_bits (spec.takeWhile is_flag_char) },
          (spec.takeWhile is_flag_char).length) := by
  refine ⟨init_flags_core uninit_flags spec h, fun self => ?_⟩
  have := parse_flags_eq self spec 0 (Nat.zero_le _)
  simpa using this

/-- C17, at the text `-` when the member `flags` holds `0x20` beforehand: the
parsed flags are `0x21`, a bit beyond MINUS. -/
theorem init_flags_no_dollar_witness :
    ∃ p, init 0x20 "-".toList = some p ∧ p.flags = 0x21 ∧ p.flags ≠ Flags.MINUS := by
  obtain ⟨p, hp, hfl⟩ := (init_flags_no_dollar 0x20 "-".toList (by decide)).1
  have hv : (0x20 : Nat) ||| flag_bits ("-".toList.takeWhile is_flag_char) = 0x21 := by decide
  rw [hv] at hfl
  exact ⟨p, hp, hfl, by rw [hfl]; decide⟩

/-- C18, as stated, fails: for `-5$` the parsed param is neither -1 nor at
least 1. -/
theorem init_param_negative :
    ¬ ∃ p, init 0 "-5$".toList = some p ∧ (p.param = -1 ∨ 1 ≤ p.param) := by
  rintro ⟨p, hp, hparam⟩
  have he : init 0 "-5$".toList = some
      { param := -5, flags := 0, type := PlaceholderType.TYPE_DEFAULT,
        width := {}, precision := {} } := by
    decide
  have hpe := hp.symm.trans he
  simp only [Option.some.injEq] at hpe
  subst hpe
  revert hparam
  decide

/-- C18, amended. Without `$` the parsed param is -1. With a `$`, the param is
what `stoi` makes of the text before the first `$` (white space skipped, an
optional sign, the longest run of digits, the value within `int`), and -1 when
`stoi` fails; in particular, when that text is a non-empty run of digits whose
value fits an `int`, the param is that value. The param can be zero or
negative. -/
theorem init_param_eq (uninit_flags : Nat) :
    (∀ spec : List Char, '$' ∉ spec →
      ∃ p, init uninit_flags spec = some p ∧ p.param = -1) ∧
    (∀ pre rest : List Char, '$' ∉ pre →
      ∃ p, init uninit_flags (pre ++ '$' :: rest) = some p ∧
        p.param = (stoi pre).getD (-1)) ∧
    (∀ ds rest : List Char, ds ≠ [] → (∀ c ∈ ds, isdigit c = true) →
      (digits_value ds : Int) ≤ INT_MAX →
      ∃ p, init uninit_flags (ds ++ '$' :: rest) = some p ∧
        p.param = (digits_value ds : Int)) := by
  have hsecond : ∀ pre rest : List Char, '$' ∉ pre →
      ∃ p, init uninit_flags (pre ++ '$' :: rest) = some p ∧
        p.param = (stoi pre).getD (-1) := by
    intro pre rest hpre
    obtain ⟨p, hp, hparam⟩ := init_param_dollar uninit_flags (pre ++ '$' :: rest) pre.length
      (find_dollar_first pre rest hpre)
    refine ⟨p, hp, ?_⟩
    rw [hparam, substr_some _ _ _ (Nat.zero_le _)]
    simp
  refine ⟨?_, hsecond, ?_⟩
  · intro spec hspec
    exact init_param_no_dollar uninit_flags spec (find_dollar_none spec hspec)
  · intro ds rest hne hd hmax
    have hnd : '$' ∉ ds := fun hmem => (isdigit_not_special _ (hd _ hmem)).2.2.2 rfl
    obtain ⟨p, hp, hparam⟩ := hsecond ds rest hnd
    refine ⟨p, hp, ?_⟩
    rw [hparam, stoi_digits ds hne hd hmax]
    rfl

/-- C18, amended, at `12$d` (param 12) and at `0$` (param 0). -/
theorem init_param_eq_witness :
    (∃ p, init 0 "12$d".toList = some p ∧ p.param = 12) ∧
      (∃ p, init 0 "0$".toList = some p ∧ p.param = 0) :=
  ⟨(init_param_eq 0).2.1 "12".toList "d".toList (by decide),
    (init_param_eq 0).2.1 "0".toList [] (by decide)⟩

/-- C19. When the parsed type is not `TYPE_DEFAULT`, the first character of
the whole text is one of `d`, `i`, `u`, `o`, `X`, `x`, and the type is the one
that letter stands for. -/
theorem init_type_from_first (uninit_flags : Nat) (spec : List Char) :
    ∃ p, init uninit_flags spec = some p ∧
      (p.type ≠ PlaceholderType.TYPE_DEFAULT →
        ∃ c, spec.head? = some c ∧
          (((c = 'd' ∨ c = 'i') ∧ p.type = PlaceholderType.TYPE_SIGNED_INT) ∨
            (c = 'u' ∧ p.type = PlaceholderType.TYPE_UNSIGNED_INT) ∨
            (c = 'o' ∧ p.type = PlaceholderType.TYPE_OCT) ∨
            (c = 'X' ∧ p.type = PlaceholderType.TYPE_HEX_UPPER) ∨
            (c = 'x' ∧ p.type = PlaceholderType.TYPE_HEX_LOWER))) := by
  obtain ⟨p, hp, hinit⟩ := init_some uninit_flags spec
  refine ⟨p, hinit, fun hne => ?_⟩
  have hinv := parse_loop_invariant spec
    (fun s => s.type = PlaceholderType.TYPE_DEFAULT ∨ type_of_first spec s.type)
    tbl _ 0 p (tbl_keep_type spec) (Or.inl rfl) hp
  rcases hinv with h | h
  · exact absurd h hne
  · exact h

/-- C19, at the text `x`: the type is lower-case hexadecimal. -/
theorem init_type_from_first_witness :
    ∃ p, init 0 "x".toList = some p ∧ p.type = PlaceholderType.TYPE_HEX_LOWER := by
  obtain ⟨p, hp, _⟩ := init_type_from_first 0 "x".toList
  have he : init 0 "x".toList = some
      { param := -1, flags := 0, type := PlaceholderType.TYPE_HEX_LOWER,
        width := {}, precision := {} } := by
    decide
  have hpe := hp.symm.trans he
  simp only [Option.some.injEq] at hpe
  subst hpe
  exact ⟨_, he, rfl⟩

/-- C20. When the first character of the text is not `.` (or the text is
empty), the parsed precision is untouched: status DEFAULT and number -1. -/
theorem init_precision_untouched (uninit_flags : Nat) (spec : List Char)
    (h : spec.head? ≠ some '.') :
    ∃ p, init uninit_flags spec = some p ∧
      p.precision = { status := NumFieldStatus.NUM_FIELD_DEFAULT, num := -1 } := by
  obtain ⟨p, hp, hinit⟩ := init_some uninit_flags spec
  exact ⟨p, hinit, parse_loop_invariant spec
    (fun s => s.precision = { status := NumFieldStatus.NUM_FIELD_DEFAULT, num := -1 })
    tbl _ 0 p (tbl_keep_precision spec h _) rfl hp⟩

/-- C20, at the text `8.3d`: the precision stays DEFAULT although `.3` follows. -/
theorem init_precision_untouched_witness :
    ∃ p, init 0 "8.3d".toList = some p ∧
      p.precision = { status := NumFieldStatus.NUM_FIELD_DEFAULT, num := -1 } :=
  init_precision_untouched 0 "8.3d".toList (by decide)

end format_placeholder

end simple_print
